import Mathlib

/-!
Safe: beam tracing through a mirror grid (safe.cpp)

A shallow embedding of `Safe::markRay`, `lexiComp`, `Safe::testSecurity` and the
`Safe` constructor of `safe.cpp`, followed by theorems about them.

Modelling conventions.
* `int` is modelled by `Int`.  Every value the program computes from a grid with
  `rows, columns >= 1` lies between `-1` and `rows * columns`, so no `int`
  operation wraps as long as the grid itself is representable.
* `std::pair<int,int>` is `Int × Int`; `std::list<Position>` is `List Position`.
* `vector<vector<Mirror>>` is a list of rows; an indexed read outside the stored
  range (which the loop guard of `markRay` excludes on a well-formed grid) reads `EMPTY`.
* The `while` loop of `markRay` is a recursion on an explicit iteration budget
  (`fuel`): `none` means the budget ran out before the beam left the grid.
* `std::list::sort(comp)` is a stable sort; it is modelled by insertion sort with the
  same comparator.  `std::list::unique()` removes consecutive equal elements.
* `std::to_string(int)` is `toString` on `Int` (decimal, leading `-` when negative).
* An exception that leaves the constructor (`std::length_error` from a vector
  allocation with a negative size) is `none` in `Safe.construct`; `Safe.build` is the
  grid built when the allocations succeed.
* `Safe.WF` says that the stored grid has `rows` rows of `columns` cells, as the
  constructor leaves it.  It is assumed where a result depends on writing a cell
  (`placeMirror`); results that only read cells hold for every value of `Safe`.

Layout: the embedding of the program, then the notions used to state and prove the
results (`step`, `Exits`, `Visits`, `rev`, ...), then lemmas, then the main theorems.
The central facts are that one loop iteration `step` is a bijection on states
(`back_step`, `step_back`) and that it commutes with beam reversal
(`step_rev_step`): a beam that entered from outside cannot repeat a state, and a beam
run backwards from its exit retraces its cells.
-/

namespace SafeModel

/-- The states of spaces in a MirrorGrid (`enum Mirror`). -/
inductive Mirror where
  | EMPTY
  | SLASH
  | BACKSLASH
  deriving DecidableEq, Repr

/-- The (row, column) coordinates of a space (`typedef std::pair<int,int> Position`). -/
abbrev Position := Int × Int

/-- The 2D grid of mirrors (`typedef vector<vector<Mirror>> MirrorGrid`). -/
abbrev MirrorGrid := List (List Mirror)

/-- The data members of `class Safe`. -/
structure Safe where
  grid : MirrorGrid
  rows : Int
  columns : Int
  deriving DecidableEq, Repr

/-- The read `grid[p.first][p.second]`. -/
def cellAt (s : Safe) (p : Position) : Mirror :=
  (s.grid.getD p.1.toNat []).getD p.2.toNat Mirror.EMPTY

/-- The loop guard of `markRay`:
`0 <= start.second && start.second < columns && 0 <= start.first && start.first < rows`. -/
def inGrid (s : Safe) (p : Position) : Prop :=
  0 ≤ p.2 ∧ p.2 < s.columns ∧ 0 ≤ p.1 ∧ p.1 < s.rows

instance (s : Safe) (p : Position) : Decidable (inGrid s p) := by
  unfold inGrid
  exact inferInstance

/-- The built-in comparison `a < b` of `std::pair<int,int>`. -/
def pairLt (a b : Position) : Prop :=
  a.1 < b.1 ∨ (¬ b.1 < a.1 ∧ a.2 < b.2)

instance (a b : Position) : Decidable (pairLt a b) := by
  unfold pairLt
  exact inferInstance

/-- The comparison function `lexiComp` handed to `path.sort`. -/
def lexiComp (a b : Position) : Prop :=
  if a.1 ≠ b.1 then pairLt a b else a.2 < b.2

instance (a b : Position) : Decidable (lexiComp a b) := by
  unfold lexiComp
  exact inferInstance

/-- The call `path.unique()`: of every run of consecutive equal elements only the
first is kept. -/
def unique : List Position → List Position
  | [] => []
  | [a] => [a]
  | a :: b :: rest => if a = b then unique (b :: rest) else a :: unique (b :: rest)

/-- The direction update of the `switch` in the loop body of `markRay`:
`EMPTY` leaves the direction alone, `SLASH` stores `-direction.second` in `first`
and `-tmp` (the old `first`) in `second`, `BACKSLASH` swaps the two components. -/
def reflect (m : Mirror) (direction : Position) : Position :=
  match m with
  | Mirror.EMPTY => direction
  | Mirror.SLASH =>
      let tmp := direction.1
      (-direction.2, -tmp)
  | Mirror.BACKSLASH =>
      let tmp := direction.2
      (tmp, direction.1)

/-- The `while` loop of `markRay`.  The state is `start`, `direction` and the list
`path` built so far; each iteration costs one unit of `fuel`. -/
def markRayLoop (s : Safe) : Nat → Position → Position → List Position →
    Option (Position × Position × List Position)
  | 0, start, direction, path =>
      if inGrid s start then none else some (start, direction, path)
  | fuel + 1, start, direction, path =>
      if inGrid s start then
        match cellAt s start with
        | Mirror.EMPTY =>
            markRayLoop s fuel (start.1 + direction.1, start.2 + direction.2) direction
              (path ++ [start])
        | Mirror.SLASH =>
            let tmp := direction.1
            let direction : Position := (-direction.2, -tmp)
            markRayLoop s fuel (start.1 + direction.1, start.2 + direction.2) direction path
        | Mirror.BACKSLASH =>
            let tmp := direction.2
            let direction : Position := (tmp, direction.1)
            markRayLoop s fuel (start.1 + direction.1, start.2 + direction.2) direction path
      else some (start, direction, path)

/-- The function `Safe::markRay`: the result is the updated `start`, the updated
`direction` and the returned list. -/
def markRay (fuel : Nat) (s : Safe) (start direction : Position) :
    Option (Position × Position × List Position) :=
  match markRayLoop s fuel (start.1 + direction.1, start.2 + direction.2) direction [] with
  | none => none
  | some (start, direction, path) =>
      some (start, direction, unique (path.insertionSort lexiComp))

/-- The merge loop of `testSecurity` while `defaultIt` stays on the element `d`:
the iterations that only advance `targetIt`, up to the first one that advances
`defaultIt`.  `next` is the loop continued after `defaultIt++`; the result is
`(intersections, solution)`. -/
def advanceTarget (d : Position) (next : List Position → Int → Position → Int × Position) :
    List Position → Int → Position → Int × Position
  | [], intersections, solution => (intersections, solution)
  | t :: targetRest, intersections, solution =>
      if pairLt d t then
        next (t :: targetRest) intersections solution
      else if d = t then
        next targetRest (intersections + 1) (if solution.1 = -1 then d else solution)
      else
        advanceTarget d next targetRest intersections solution

/-- The merge loop of `testSecurity` over the two sorted lists, from the positions
of `defaultIt` and `targetIt` (the remaining parts of both lists) and the current
values of `intersections` and `solution`; the result is their final values. -/
def intersectLoop : List Position → List Position → Int → Position → Int × Position
  | [], _, intersections, solution => (intersections, solution)
  | d :: defaultRest, targetPath, intersections, solution =>
      advanceTarget d (intersectLoop defaultRest) targetPath intersections solution

/-- The function `Safe::testSecurity`; `none` only when a call of `markRay` ran out
of `fuel`. -/
def testSecurity (fuel : Nat) (s : Safe) : Option String :=
  match markRay fuel s (0, -1) (0, 1) with
  | none => none
  | some (location, _, defaultPath) =>
      if location.1 = s.rows - 1 ∧ location.2 = s.columns then
        some "0"
      else
        match markRay fuel s (s.rows - 1, s.columns) (0, -1) with
        | none => none
        | some (_, _, targetPath) =>
            let (intersections, solution) := intersectLoop defaultPath targetPath 0 (-1, -1)
            if intersections = 0 then
              some "impossible"
            else
              some (toString intersections ++ " " ++ toString (solution.1 + 1) ++ " "
                ++ toString (solution.2 + 1))

/-- The assignment `grid[p.first][p.second] = m` of the constructor. -/
def setCell (g : MirrorGrid) (p : Position) (m : Mirror) : MirrorGrid :=
  g.modify (fun row => row.set p.2.toNat m) p.1.toNat

/-- The grid that the constructor `Safe::Safe(r, c, slashes, backslashes)` builds once
its vector allocations have succeeded (`r >= 0`, and `c >= 0` unless `r = 0`): an
all-`EMPTY` grid of `r` rows of `c` cells, then one assignment per listed position, the
`/` list first.  The listed positions are taken to be inside the grid (the source
writes out of bounds otherwise).  The allocation failure for a negative size is part
of `Safe.construct`. -/
def Safe.build (r c : Int) (slashes backslashes : List Position) : Safe :=
  let grid : MirrorGrid := List.replicate r.toNat (List.replicate c.toNat Mirror.EMPTY)
  let grid := slashes.foldl (fun g p => setCell g p Mirror.SLASH) grid
  let grid := backslashes.foldl (fun g p => setCell g p Mirror.BACKSLASH) grid
  { grid := grid, rows := r, columns := c }

/-- The constructor `Safe::Safe(r, c, slashes, backslashes)` with its failure: `none`
when a vector allocation throws `std::length_error`.  `MirrorGrid(rows)` throws for
`rows < 0` (the negative `int` becomes a size beyond `max_size()`), and
`vector<Mirror>(columns, EMPTY)`, run once per row, throws for `columns < 0` as soon
as there is a first row.  Otherwise the safe is built by `Safe.build`. -/
def Safe.construct (r c : Int) (slashes backslashes : List Position) : Option Safe :=
  if r < 0 then none
  else if 0 < r ∧ c < 0 then none
  else some (Safe.build r c slashes backslashes)

/-- A grid as the constructor leaves it: `rows` rows of `columns` cells each. -/
def Safe.WF (s : Safe) : Prop :=
  s.grid.length = s.rows.toNat ∧ ∀ row ∈ s.grid, row.length = s.columns.toNat

instance (s : Safe) : Decidable s.WF := by
  unfold Safe.WF
  exact inferInstance

/-- The safe `s` with the mirror `m` put on the cell `p` (the constructor's
assignment applied once more). -/
def placeMirror (s : Safe) (p : Position) (m : Mirror) : Safe :=
  { s with grid := setCell s.grid p m }

/-- One iteration of the loop of `markRay` on the pair `(start, direction)`: the
direction is updated by the cell under `start`, then `start` takes the next step. -/
def step (s : Safe) (st : Position × Position) : Position × Position :=
  let d := reflect (cellAt s st.1) st.2
  ((st.1.1 + d.1, st.1.2 + d.2), d)

/-- The positions appended to `path` by the first `k` iterations from the state `st`. -/
def emptiesVisited (s : Safe) : Nat → Position × Position → List Position
  | 0, _ => []
  | k + 1, st =>
      (if cellAt s st.1 = Mirror.EMPTY then [st.1] else []) ++ emptiesVisited s k (step s st)

/-- The loop started in state `st` runs exactly `k` iterations: the first `k` states
are inside the grid and the next one is outside. -/
def Exits (s : Safe) (st : Position × Position) (k : Nat) : Prop :=
  (∀ j, j < k → inGrid s ((step s)^[j] st).1) ∧ ¬ inGrid s ((step s)^[k] st).1

/-- An axis-aligned unit vector: components in `{-1, 0, 1}`, exactly one non-zero. -/
def axisUnit (d : Position) : Prop :=
  (d.1 = 0 ∧ (d.2 = 1 ∨ d.2 = -1)) ∨ (d.2 = 0 ∧ (d.1 = 1 ∨ d.1 = -1))

instance (d : Position) : Decidable (axisUnit d) := by
  unfold axisUnit
  exact inferInstance

/-- The state before `st`: one step back against the direction, the direction undone
by the mirror found there. -/
def back (s : Safe) (st : Position × Position) : Position × Position :=
  let q : Position := (st.1.1 - st.2.1, st.1.2 - st.2.2)
  (q, reflect (cellAt s q) st.2)

/-- The same beam seen backwards: the cell it came from, with the opposite direction. -/
def rev (st : Position × Position) : Position × Position :=
  ((st.1.1 - st.2.1, st.1.2 - st.2.2), (-st.2.1, -st.2.2))

/-- The values the merge loop is expected to end with: `intersections` raised by the
number of elements of the first list found in the second, and `solution` set to the
first of them if it still held the sentinel row `-1`. -/
def mergeResult (l1 l2 : List Position) (n : Int) (sol : Position) : Int × Position :=
  (n + ((l1.filter (fun p => decide (p ∈ l2))).length : Int),
    if sol.1 = -1 then ((l1.filter (fun p => decide (p ∈ l2))).head?).getD sol else sol)

/-- The first step of `markRay` (`start += direction`): the state `(start, direction)`
with which the loop is entered. -/
def entry (start direction : Position) : Position × Position :=
  ((start.1 + direction.1, start.2 + direction.2), direction)

/-- The position at which the emitter beam leaves the grid: the updated `location`
after the first call of `markRay` in `testSecurity`. -/
def emitterExit (fuel : Nat) (s : Safe) : Option Position :=
  (markRay fuel s (0, -1) (0, 1)).map (fun r => r.1)

/-- The test `location.first == rows-1 && location.second == columns` of `testSecurity`
on the emitter beam: the beam ends on the detector, the safe is open. -/
def isOpen (fuel : Nat) (s : Safe) : Prop :=
  emitterExit fuel s = some (s.rows - 1, s.columns)

instance (fuel : Nat) (s : Safe) : Decidable (isOpen fuel s) := by
  unfold isOpen
  exact inferInstance

/-- The grid holds no mirror at all. -/
def noMirrors (s : Safe) : Prop :=
  ∀ row ∈ s.grid, ∀ m ∈ row, m = Mirror.EMPTY

instance (s : Safe) : Decidable (noMirrors s) := by
  unfold noMirrors
  exact inferInstance

/-- The beam that enters the loop in state `st` steps on the cell `p` before it leaves
the grid. -/
def Visits (s : Safe) (st : Position × Position) (p : Position) : Prop :=
  ∃ i, (∀ l, l ≤ i → inGrid s ((step s)^[l] st).1) ∧ ((step s)^[i] st).1 = p

/-- Brute force test of one cell: a mirror can be inserted on `c` (the cell is `EMPTY`)
and, with a `/` or with a `\` put there, the emitter beam ends on the detector. -/
def opensWithMirror (fuel : Nat) (s : Safe) (c : Position) : Prop :=
  cellAt s c = Mirror.EMPTY ∧
    (isOpen fuel (placeMirror s c Mirror.SLASH) ∨ isOpen fuel (placeMirror s c Mirror.BACKSLASH))

instance (fuel : Nat) (s : Safe) (c : Position) : Decidable (opensWithMirror fuel s c) := by
  unfold opensWithMirror
  exact inferInstance

/-- Brute force count: the number of cells of the grid on which one inserted mirror
opens the safe. -/
def bruteForceCount (fuel : Nat) (s : Safe) : Nat :=
  ((Finset.Ico 0 s.rows ×ˢ Finset.Ico 0 s.columns).filter
    (fun c => opensWithMirror fuel s c)).card

/-- A 3 x 3 safe with one `\` mirror at row 0, column 1, built by the constructor. -/
def sampleSafe : Safe := Safe.build 3 3 [] [(0, 1)]

/-- Every stored cell of the grid holds a mirror. -/
def allMirrors (s : Safe) : Prop :=
  ∀ row ∈ s.grid, ∀ m ∈ row, m ≠ Mirror.EMPTY

instance (s : Safe) : Decidable (allMirrors s) := by
  unfold allMirrors
  exact inferInstance

theorem markRayLoop_succ (s : Safe) (fuel : Nat) (p d : Position) (path : List Position)
    (h : inGrid s p) :
    markRayLoop s (fuel + 1) p d path =
      markRayLoop s fuel (step s (p, d)).1 (step s (p, d)).2
        (path ++ (if cellAt s p = Mirror.EMPTY then [p] else [])) := by
  rw [markRayLoop, if_pos h]
  cases hc : cellAt s p <;> simp [step, reflect, hc]

theorem markRayLoop_out (s : Safe) (fuel : Nat) (p d : Position) (path : List Position)
    (h : ¬ inGrid s p) : markRayLoop s fuel p d path = some (p, d, path) := by
  cases fuel <;> simp [markRayLoop, h]

theorem reflect_reflect (m : Mirror) (d : Position) : reflect m (reflect m d) = d := by
  cases m <;> simp [reflect]

theorem reflect_neg (m : Mirror) (d : Position) :
    reflect m (-d.1, -d.2) = (-(reflect m d).1, -(reflect m d).2) := by
  cases m <;> simp [reflect]

theorem axisUnit_reflect (m : Mirror) (d : Position) (h : axisUnit d) :
    axisUnit (reflect m d) := by
  unfold axisUnit at *
  cases m <;> simp only [reflect] <;> omega

theorem back_step (s : Safe) (st : Position × Position) : back s (step s st) = st := by
  obtain ⟨p, d⟩ := st
  simp [back, step, reflect_reflect]

theorem step_back (s : Safe) (st : Position × Position) : step s (back s st) = st := by
  obtain ⟨p, d⟩ := st
  simp [back, step, reflect_reflect]

theorem step_injective (s : Safe) : Function.Injective (step s) :=
  Function.LeftInverse.injective (back_step s)

theorem rev_rev (st : Position × Position) : rev (rev st) = st := by
  obtain ⟨p, d⟩ := st
  simp [rev]

theorem step_rev_step (s : Safe) (st : Position × Position) :
    step s (rev (step s st)) = rev st := by
  obtain ⟨p, d⟩ := st
  simp [rev, step, reflect_neg, reflect_reflect]
  constructor <;> omega

theorem step_axisUnit (s : Safe) (st : Position × Position) (h : axisUnit st.2) :
    axisUnit (step s st).2 := by
  simp only [step]
  exact axisUnit_reflect _ _ h

theorem iterate_axisUnit (s : Safe) (st : Position × Position) (h : axisUnit st.2) (k : Nat) :
    axisUnit ((step s)^[k] st).2 := by
  induction k with
  | zero => simpa using h
  | succ k ih =>
    rw [Function.iterate_succ_apply']
    exact step_axisUnit s _ ih

/-- Position of the state before. -/
theorem step_pos (s : Safe) (st : Position × Position) :
    (rev (step s st)).1 = st.1 := by
  obtain ⟨p, d⟩ := st
  simp [rev, step]

theorem iterate_rev (s : Safe) (st : Position × Position) (k : Nat) :
    (step s)^[k] (rev ((step s)^[k] st)) = rev st := by
  induction k generalizing st with
  | zero => simp
  | succ k ih =>
    have h1 : (step s)^[k + 1] st = step s ((step s)^[k] st) :=
      Function.iterate_succ_apply' _ _ _
    rw [h1, Function.iterate_succ_apply, step_rev_step, ih]

theorem loop_of_exits (s : Safe) (k : Nat) :
    ∀ (fuel : Nat) (st : Position × Position) (path : List Position),
      k ≤ fuel → Exits s st k →
      markRayLoop s fuel st.1 st.2 path =
        some (((step s)^[k] st).1, ((step s)^[k] st).2, path ++ emptiesVisited s k st) := by
  induction k with
  | zero =>
    intro fuel st path _ h
    have := h.2
    simp only [Function.iterate_zero, id_eq] at this
    simp [markRayLoop_out s fuel st.1 st.2 path this, emptiesVisited]
  | succ k ih =>
    intro fuel st path hf h
    obtain ⟨fuel, rfl⟩ : ∃ n, fuel = n + 1 := ⟨fuel - 1, by omega⟩
    have h0 : inGrid s st.1 := by simpa using h.1 0 (by omega)
    have hE : Exits s (step s st) k := by
      refine ⟨fun j hj => ?_, ?_⟩
      · have := h.1 (j + 1) (by omega)
        rwa [Function.iterate_succ_apply] at this
      · have := h.2
        rwa [Function.iterate_succ_apply] at this
    rw [markRayLoop_succ s fuel st.1 st.2 path h0, ih fuel (step s st) _ (by omega) hE]
    simp [emptiesVisited, Function.iterate_succ_apply, List.append_assoc]

theorem exits_of_loop (s : Safe) (fuel : Nat) :
    ∀ (st : Position × Position) (path : List Position) (r : Position × Position × List Position),
      markRayLoop s fuel st.1 st.2 path = some r → ∃ k, k ≤ fuel ∧ Exits s st k := by
  induction fuel with
  | zero =>
    intro st path r h
    refine ⟨0, le_refl _, ?_, ?_⟩
    · intro j hj; omega
    · intro hin
      have hin' : inGrid s st.1 := by simpa using hin
      simp [markRayLoop, hin'] at h
  | succ fuel ih =>
    intro st path r h
    by_cases hin : inGrid s st.1
    · rw [markRayLoop_succ s fuel st.1 st.2 path hin] at h
      obtain ⟨k, hk, hE⟩ := ih (step s st) _ r h
      refine ⟨k + 1, by omega, ?_, ?_⟩
      · intro j hj
        cases j with
        | zero => simpa using hin
        | succ j =>
          rw [Function.iterate_succ_apply]
          exact hE.1 j (by omega)
      · rw [Function.iterate_succ_apply]
        exact hE.2
    · exact ⟨0, by omega, fun j hj => by omega, by simpa using hin⟩

theorem exits_unique (s : Safe) (st : Position × Position) (k k' : Nat)
    (h : Exits s st k) (h' : Exits s st k') : k = k' := by
  rcases Nat.lt_trichotomy k k' with hlt | heq | hgt
  · exact absurd (h'.1 k hlt) h.2
  · exact heq
  · exact absurd (h.1 k' hgt) h'.2

theorem mem_emptiesVisited (s : Safe) (k : Nat) :
    ∀ (st : Position × Position) (p : Position),
      p ∈ emptiesVisited s k st ↔
        ∃ j, j < k ∧ ((step s)^[j] st).1 = p ∧ cellAt s p = Mirror.EMPTY := by
  induction k with
  | zero => intro st p; simp [emptiesVisited]
  | succ k ih =>
    intro st p
    simp only [emptiesVisited, List.mem_append, ih]
    constructor
    · rintro (h | ⟨j, hj, hp, hc⟩)
      · by_cases hc : cellAt s st.1 = Mirror.EMPTY
        · simp only [hc, if_true, List.mem_singleton] at h
          subst h
          exact ⟨0, by omega, rfl, hc⟩
        · simp [hc] at h
      · exact ⟨j + 1, by omega, by rwa [Function.iterate_succ_apply], hc⟩
    · rintro ⟨j, hj, hp, hc⟩
      cases j with
      | zero =>
        left
        simp only [Function.iterate_zero, id_eq] at hp
        subst hp
        simp [hc]
      | succ j =>
        right
        exact ⟨j, by omega, by rwa [Function.iterate_succ_apply] at hp, hc⟩

theorem back_entry_pos (s : Safe) (start dir : Position) :
    (back s ((start.1 + dir.1, start.2 + dir.2), dir)).1 = start := by
  simp [back]

/-- A beam that entered from outside never comes back to a state it has been in. -/
theorem no_return (s : Safe) (start dir : Position) (hout : ¬ inGrid s start) (i j : Nat)
    (hij : i < j)
    (hin : ∀ l, l < j → inGrid s ((step s)^[l] ((start.1 + dir.1, start.2 + dir.2), dir)).1)
    (heq : (step s)^[i] ((start.1 + dir.1, start.2 + dir.2), dir) =
      (step s)^[j] ((start.1 + dir.1, start.2 + dir.2), dir)) : False := by
  obtain ⟨m, rfl⟩ : ∃ m, j = i + (m + 1) := ⟨j - i - 1, by omega⟩
  rw [Function.iterate_add_apply] at heq
  have h1 := (step_injective s).iterate i heq
  rw [Function.iterate_succ_apply'] at h1
  have h2 := congrArg (back s) h1
  rw [back_step] at h2
  have h3 := hin m (by omega)
  rw [← h2, back_entry_pos] at h3
  exact hout h3

theorem stateSet_card (R C : Int) :
    ((Finset.Ico 0 R ×ˢ Finset.Ico 0 C) ×ˢ
      ({(0, 1), (0, -1), (1, 0), (-1, 0)} : Finset Position)).card =
      R.toNat * C.toNat * 4 := by
  rw [Finset.card_product, Finset.card_product, Int.card_Ico, Int.card_Ico]
  simp

theorem exits_exists (s : Safe) (start dir : Position) (hout : ¬ inGrid s start)
    (hu : axisUnit dir) :
    ∃ k, k ≤ s.rows.toNat * s.columns.toNat * 4 ∧
      Exits s ((start.1 + dir.1, start.2 + dir.2), dir) k := by
  classical
  have hex : ∃ k, k ≤ s.rows.toNat * s.columns.toNat * 4 ∧
      ¬ inGrid s ((step s)^[k] ((start.1 + dir.1, start.2 + dir.2), dir)).1 := by
    by_contra hno
    push_neg at hno
    have hmaps : ∀ a ∈ Finset.range (s.rows.toNat * s.columns.toNat * 4 + 1),
        (step s)^[a] ((start.1 + dir.1, start.2 + dir.2), dir) ∈
          (Finset.Ico 0 s.rows ×ˢ Finset.Ico 0 s.columns) ×ˢ
            ({(0, 1), (0, -1), (1, 0), (-1, 0)} : Finset Position) := by
      intro a ha
      have h1 := hno a (by simpa [Nat.lt_succ_iff] using ha)
      have h2 := iterate_axisUnit s ((start.1 + dir.1, start.2 + dir.2), dir) hu a
      generalize (step s)^[a] ((start.1 + dir.1, start.2 + dir.2), dir) = st at h1 h2
      obtain ⟨⟨r, c⟩, ⟨a, b⟩⟩ := st
      simp only [inGrid, axisUnit] at h1 h2
      simp only [Finset.mem_product, Finset.mem_Ico, Finset.mem_insert, Finset.mem_singleton,
        Prod.mk.injEq]
      omega
    have hcard : ((Finset.Ico 0 s.rows ×ˢ Finset.Ico 0 s.columns) ×ˢ
        ({(0, 1), (0, -1), (1, 0), (-1, 0)} : Finset Position)).card <
        (Finset.range (s.rows.toNat * s.columns.toNat * 4 + 1)).card := by
      rw [stateSet_card, Finset.card_range]
      omega
    obtain ⟨x, hx, y, hy, hxy, hf⟩ := Finset.exists_ne_map_eq_of_card_lt_of_maps_to hcard hmaps
    have hx' : x ≤ s.rows.toNat * s.columns.toNat * 4 := by
      simpa [Nat.lt_succ_iff] using hx
    have hy' : y ≤ s.rows.toNat * s.columns.toNat * 4 := by
      simpa [Nat.lt_succ_iff] using hy
    rcases Nat.lt_or_gt_of_ne hxy with hlt | hgt
    · exact no_return s start dir hout x y hlt (fun l hl => hno l (by omega)) hf
    · exact no_return s start dir hout y x hgt (fun l hl => hno l (by omega)) hf.symm
  refine ⟨Nat.find hex, (Nat.find_spec hex).1, ?_, (Nat.find_spec hex).2⟩
  intro j hj
  by_contra hnot
  exact Nat.find_min hex hj ⟨le_trans (le_of_lt hj) (Nat.find_spec hex).1, hnot⟩

theorem lexiComp_iff (a b : Position) : lexiComp a b ↔ pairLt a b := by
  obtain ⟨a1, a2⟩ := a
  obtain ⟨b1, b2⟩ := b
  simp only [lexiComp, pairLt]
  split_ifs with h <;> omega

theorem pairLt_irrefl (a : Position) : ¬ pairLt a a := by
  simp only [pairLt]; omega

theorem pairLt_trans (a b c : Position) (h1 : pairLt a b) (h2 : pairLt b c) : pairLt a c := by
  simp only [pairLt] at *; omega

theorem pairLt_trichotomy (a b : Position) : pairLt a b ∨ a = b ∨ pairLt b a := by
  obtain ⟨a1, a2⟩ := a
  obtain ⟨b1, b2⟩ := b
  simp only [pairLt, Prod.mk.injEq]; omega

theorem pairLt_asymm (a b : Position) (h : pairLt a b) : ¬ pairLt b a := by
  simp only [pairLt] at *; omega

theorem pairLt_of_not_lt_of_ne (a b : Position) (h : ¬ pairLt b a) (hne : a ≠ b) :
    pairLt a b := by
  rcases pairLt_trichotomy a b with h1 | h1 | h1
  · exact h1
  · exact absurd h1 hne
  · exact absurd h1 h

theorem not_pairLt_trans (a b c : Position) (h1 : ¬ pairLt b a) (h2 : ¬ pairLt c b) :
    ¬ pairLt c a := by
  obtain ⟨a1, a2⟩ := a
  obtain ⟨b1, b2⟩ := b
  obtain ⟨c1, c2⟩ := c
  simp only [pairLt] at *; omega

theorem mem_orderedInsert_lexiComp (a x : Position) (l : List Position) :
    x ∈ List.orderedInsert lexiComp a l ↔ x = a ∨ x ∈ l := by
  rw [(List.perm_orderedInsert lexiComp a l).mem_iff, List.mem_cons]

theorem sorted_orderedInsert_lexiComp (a : Position) (l : List Position)
    (h : l.Pairwise (fun x y => ¬ pairLt y x)) :
    (List.orderedInsert lexiComp a l).Pairwise (fun x y => ¬ pairLt y x) := by
  induction l with
  | nil => simp
  | cons b l ih =>
    rw [List.pairwise_cons] at h
    simp only [List.orderedInsert]
    split_ifs with hab
    · rw [lexiComp_iff] at hab
      refine List.pairwise_cons.2 ⟨?_, List.pairwise_cons.2 h⟩
      intro x hx
      rcases List.mem_cons.1 hx with rfl | hx
      · exact pairLt_asymm _ _ hab
      · exact not_pairLt_trans _ _ _ (pairLt_asymm _ _ hab) (h.1 x hx)
    · rw [lexiComp_iff] at hab
      refine List.pairwise_cons.2 ⟨?_, ih h.2⟩
      intro x hx
      rcases (mem_orderedInsert_lexiComp a x l).1 hx with rfl | hx
      · exact hab
      · exact h.1 x hx

theorem sorted_insertionSort_lexiComp (l : List Position) :
    (l.insertionSort lexiComp).Pairwise (fun x y => ¬ pairLt y x) := by
  induction l with
  | nil => simp
  | cons a l ih =>
    simp only [List.insertionSort]
    exact sorted_orderedInsert_lexiComp a _ ih

theorem mem_unique (x : Position) (l : List Position) : x ∈ unique l ↔ x ∈ l := by
  induction l with
  | nil => simp [unique]
  | cons a l ih =>
    cases l with
    | nil => simp [unique]
    | cons b rest =>
      simp only [unique]
      split_ifs with hab
      · subst hab
        rw [ih]
        simp
      · rw [List.mem_cons, ih, List.mem_cons (a := x) (b := a)]

theorem sorted_unique (l : List Position) (h : l.Pairwise (fun x y => ¬ pairLt y x)) :
    (unique l).Pairwise pairLt := by
  induction l with
  | nil => simp [unique]
  | cons a l ih =>
    cases l with
    | nil => simp [unique]
    | cons b rest =>
      rw [List.pairwise_cons] at h
      simp only [unique]
      split_ifs with hab
      · exact ih h.2
      · refine List.pairwise_cons.2 ⟨?_, ih h.2⟩
        intro x hx
        rw [mem_unique] at hx
        have hab' : pairLt a b := pairLt_of_not_lt_of_ne a b (h.1 b (List.mem_cons_self _ _)) hab
        rcases List.mem_cons.1 hx with rfl | hx
        · exact hab'
        · have hbx : ¬ pairLt x b := (List.pairwise_cons.1 h.2).1 x hx
          rcases pairLt_trichotomy b x with h1 | h1 | h1
          · exact pairLt_trans _ _ _ hab' h1
          · exact h1 ▸ hab'
          · exact absurd h1 hbx

theorem mem_sorted_path (x : Position) (l : List Position) :
    x ∈ unique (l.insertionSort lexiComp) ↔ x ∈ l := by
  rw [mem_unique, (List.perm_insertionSort lexiComp l).mem_iff]

theorem sorted_path (l : List Position) :
    (unique (l.insertionSort lexiComp)).Pairwise pairLt :=
  sorted_unique _ (sorted_insertionSort_lexiComp l)

theorem nodup_of_sorted (l : List Position) (h : l.Pairwise pairLt) : l.Nodup := by
  refine List.Pairwise.imp ?_ h
  intro a b hab heq
  exact pairLt_irrefl a (heq ▸ hab)

theorem advanceTarget_spec (d : Position) (ds : List Position)
    (next : List Position → Int → Position → Int × Position)
    (hd : d.1 ≠ -1) (hds : ∀ x ∈ ds, pairLt d x)
    (hnext : ∀ l2, l2.Pairwise pairLt → ∀ n sol, next l2 n sol = mergeResult ds l2 n sol) :
    ∀ l2, l2.Pairwise pairLt → ∀ n sol,
      advanceTarget d next l2 n sol = mergeResult (d :: ds) l2 n sol := by
  intro l2
  induction l2 with
  | nil =>
    intro _ n sol
    simp [advanceTarget, mergeResult]
  | cons t ts ih =>
    intro hs n sol
    have hs' := List.pairwise_cons.1 hs
    rw [advanceTarget]
    by_cases hlt : pairLt d t
    · -- d < t: d is not in the target list
      rw [if_pos hlt, hnext _ hs]
      have hnot : d ∉ t :: ts := by
        intro hm
        rcases List.mem_cons.1 hm with rfl | hm
        · exact pairLt_irrefl _ hlt
        · exact pairLt_asymm _ _ hlt (hs'.1 d hm)
      have hf : (d :: ds).filter (fun p => decide (p ∈ t :: ts)) =
          ds.filter (fun p => decide (p ∈ t :: ts)) :=
        List.filter_cons_of_neg (by simpa using hnot)
      simp only [mergeResult, hf]
    · rw [if_neg hlt]
      by_cases heq : d = t
      · -- d = t: a match
        subst heq
        rw [if_pos rfl, hnext _ hs'.2]
        have hcongr : ds.filter (fun p => decide (p ∈ d :: ts)) =
            ds.filter (fun p => decide (p ∈ ts)) := by
          apply List.filter_congr
          intro x hx
          have : x ≠ d := fun h => pairLt_irrefl d (h ▸ hds x hx)
          simp [this]
        have hf : (d :: ds).filter (fun p => decide (p ∈ d :: ts)) =
            d :: ds.filter (fun p => decide (p ∈ ts)) := by
          rw [List.filter_cons_of_pos (by simp), hcongr]
        simp only [mergeResult, hf, List.length_cons, List.head?_cons, Option.getD_some]
        by_cases hsol : sol.1 = -1
        · simp only [hsol, if_true, hd, if_false, Prod.mk.injEq, and_true]
          push_cast
          ring
        · simp only [hsol, if_false, Prod.mk.injEq, and_true]
          push_cast
          ring
      · -- t < d: t is not in the default list
        rw [if_neg heq, ih hs'.2]
        have hlt' : pairLt t d := pairLt_of_not_lt_of_ne t d hlt (fun h => heq h.symm)
        have hcongr : (d :: ds).filter (fun p => decide (p ∈ t :: ts)) =
            (d :: ds).filter (fun p => decide (p ∈ ts)) := by
          apply List.filter_congr
          intro x hx
          have : x ≠ t := by
            rintro rfl
            rcases List.mem_cons.1 hx with rfl | hx
            · exact pairLt_irrefl _ hlt'
            · exact pairLt_asymm _ _ hlt' (hds _ hx)
          simp [this]
        simp only [mergeResult, hcongr]

theorem intersectLoop_spec (l1 : List Position) :
    l1.Pairwise pairLt → (∀ p ∈ l1, p.1 ≠ -1) →
    ∀ l2, l2.Pairwise pairLt → ∀ n sol,
      intersectLoop l1 l2 n sol = mergeResult l1 l2 n sol := by
  induction l1 with
  | nil =>
    intro _ _ l2 _ n sol
    simp [intersectLoop, mergeResult]
  | cons d ds ih =>
    intro hs hrow l2 hs2 n sol
    have hs' := List.pairwise_cons.1 hs
    simp only [intersectLoop]
    exact advanceTarget_spec d ds (intersectLoop ds) (hrow d (List.mem_cons_self _ _)) hs'.1
      (ih hs'.2 (fun p hp => hrow p (List.mem_cons_of_mem _ hp))) l2 hs2 n sol

theorem count_string_space (a b c : String) :
    ' ' ∈ (a ++ " " ++ b ++ " " ++ c).data := by
  simp [String.data_append]

theorem count_string_ne_zero (a b c : String) : a ++ " " ++ b ++ " " ++ c ≠ "0" := by
  intro h
  have := count_string_space a b c
  rw [h] at this
  revert this
  decide

theorem count_string_ne_impossible (a b c : String) :
    a ++ " " ++ b ++ " " ++ c ≠ "impossible" := by
  intro h
  have := count_string_space a b c
  rw [h] at this
  revert this
  decide

theorem cellAt_placeMirror (s : Safe) (hwf : s.WF) (p q : Position) (m : Mirror)
    (hp : inGrid s p) (hq : inGrid s q) :
    cellAt (placeMirror s p m) q = if q = p then m else cellAt s q := by
  obtain ⟨p1, p2⟩ := p
  obtain ⟨q1, q2⟩ := q
  simp only [inGrid] at hp hq
  have hrow : q1.toNat < s.grid.length := by rw [hwf.1]; omega
  have hcol : q2.toNat < (s.grid[q1.toNat]).length := by
    rw [hwf.2 _ (List.getElem_mem _)]; omega
  simp only [cellAt, placeMirror, setCell, List.getD_eq_getElem?_getD, List.getElem?_modify,
    List.getElem?_eq_getElem hrow, Option.map_eq_map, Option.map_some', Option.getD_some,
    Prod.mk.injEq]
  by_cases h1 : p1.toNat = q1.toNat
  · have h1' : q1 = p1 := by omega
    subst h1'
    simp only [if_true, List.getElem?_set]
    by_cases h2 : p2.toNat = q2.toNat
    · have h2' : q2 = p2 := by omega
      subst h2'
      simp [hcol]
    · have h2' : q2 ≠ p2 := by omega
      simp [h2, h2']
  · have h1' : q1 ≠ p1 := by omega
    simp [h1, h1']

theorem placeMirror_WF (s : Safe) (hwf : s.WF) (p : Position) (m : Mirror) :
    (placeMirror s p m).WF := by
  refine ⟨?_, ?_⟩
  · simpa [placeMirror, setCell] using hwf.1
  · intro row hrow
    simp only [placeMirror, setCell] at hrow
    obtain ⟨n, hn⟩ := List.mem_iff_getElem?.1 hrow
    rw [List.getElem?_modify] at hn
    cases h : s.grid[n]? with
    | none => simp [h] at hn
    | some r =>
      have hr : r ∈ s.grid := List.mem_iff_getElem?.2 ⟨n, h⟩
      simp only [h, Option.map_eq_map, Option.map_some', Option.some.injEq] at hn
      subst hn
      split_ifs
      · simpa using hwf.2 r hr
      · exact hwf.2 r hr

theorem step_congr (s s' : Safe) (st : Position × Position)
    (h : cellAt s' st.1 = cellAt s st.1) : step s' st = step s st := by
  simp only [step, h]

theorem iterate_congr (s s' : Safe) (st : Position × Position) (k : Nat)
    (h : ∀ l, l < k → cellAt s' ((step s)^[l] st).1 = cellAt s ((step s)^[l] st).1) :
    ∀ l, l ≤ k → (step s')^[l] st = (step s)^[l] st := by
  intro l
  induction l with
  | zero => intro _; rfl
  | succ l ih =>
    intro hl
    rw [Function.iterate_succ_apply', Function.iterate_succ_apply', ih (by omega)]
    exact step_congr s s' _ (h l (by omega))

theorem iterate_rev_le (s : Safe) (st : Position × Position) (k l : Nat) (hl : l ≤ k) :
    (step s)^[l] (rev ((step s)^[k] st)) = rev ((step s)^[k - l] st) := by
  have h : (step s)^[k] st = (step s)^[l] ((step s)^[k - l] st) := by
    rw [← Function.iterate_add_apply]
    congr 1
    omega
  rw [h, iterate_rev]

theorem rev_entry (start dir : Position) : rev (entry start dir) = (start, (-dir.1, -dir.2)) := by
  simp [rev, entry]

theorem rev_exit (e f : Position) : rev (e, f) = entry e (-f.1, -f.2) := by
  simp only [rev, entry, Prod.mk.injEq, and_true]
  constructor <;> omega

theorem back_entry (s : Safe) (start dir : Position) : (back s (entry start dir)).1 = start := by
  simp [back, entry]

/-- A state whose predecessor lies in the grid is not the entry state of a beam that
starts outside the grid. -/
theorem entry_not_reached (s : Safe) (start dir : Position) (hout : ¬ inGrid s start)
    (x : Position × Position) (hx : inGrid s x.1) : step s x ≠ entry start dir := by
  intro h
  have h2 := congrArg (back s) h
  rw [back_step] at h2
  rw [h2, back_entry] at hx
  exact hout hx

/-- Two beams that start outside the grid at different entry states never share a state. -/
theorem beams_disjoint (s : Safe) (a da b db : Position) (ha : ¬ inGrid s a)
    (hb : ¬ inGrid s b) (hne : entry a da ≠ entry b db) (i j : Nat)
    (hi : ∀ l, l < i → inGrid s ((step s)^[l] (entry a da)).1)
    (hj : ∀ l, l < j → inGrid s ((step s)^[l] (entry b db)).1) :
    (step s)^[i] (entry a da) ≠ (step s)^[j] (entry b db) := by
  intro heq
  rcases Nat.lt_trichotomy i j with hlt | rfl | hgt
  · obtain ⟨m, rfl⟩ : ∃ m, j = i + (m + 1) := ⟨j - i - 1, by omega⟩
    rw [Function.iterate_add_apply] at heq
    have h1 := (step_injective s).iterate i heq
    rw [Function.iterate_succ_apply'] at h1
    exact entry_not_reached s a da ha _ (hj m (by omega)) h1.symm
  · exact hne ((step_injective s).iterate i heq)
  · obtain ⟨m, rfl⟩ : ∃ m, i = j + (m + 1) := ⟨i - j - 1, by omega⟩
    rw [Function.iterate_add_apply] at heq
    have h1 := (step_injective s).iterate j heq
    rw [Function.iterate_succ_apply'] at h1
    exact entry_not_reached s b db hb _ (hi m (by omega)) h1

/-- Joining two beams: if the step after the `i`-th state of the beam from `a` is the
reverse of the `j`-th state of the beam from `b`, the beam from `a` runs the beam from
`b` backwards and leaves the grid at `b`, after `i + 1 + j` iterations. -/
theorem join_beams (s : Safe) (a da b db : Position) (hb : ¬ inGrid s b) (i j : Nat)
    (hi : ∀ l, l ≤ i → inGrid s ((step s)^[l] (entry a da)).1)
    (hj : ∀ l, l ≤ j → inGrid s ((step s)^[l] (entry b db)).1)
    (hjoin : step s ((step s)^[i] (entry a da)) = rev ((step s)^[j] (entry b db))) :
    Exits s (entry a da) (i + 1 + j) ∧
      (step s)^[i + 1 + j] (entry a da) = (b, (-db.1, -db.2)) := by
  have hlate : ∀ l, l ≤ j →
      (step s)^[i + 1 + l] (entry a da) = rev ((step s)^[j - l] (entry b db)) := by
    intro l hl
    rw [Nat.add_comm (i + 1) l, Function.iterate_add_apply, Function.iterate_succ_apply', hjoin,
      iterate_rev_le s _ j l hl]
  have hend : (step s)^[i + 1 + j] (entry a da) = (b, (-db.1, -db.2)) := by
    rw [hlate j (le_refl _), Nat.sub_self, Function.iterate_zero, id_eq, rev_entry]
  refine ⟨⟨?_, ?_⟩, hend⟩
  · intro l hl
    by_cases hli : l ≤ i
    · exact hi l hli
    · obtain ⟨t, rfl⟩ : ∃ t, l = i + 1 + t := ⟨l - (i + 1), by omega⟩
      rw [hlate t (by omega)]
      obtain ⟨u, hu⟩ : ∃ u, j - t = u + 1 := ⟨j - t - 1, by omega⟩
      rw [hu, Function.iterate_succ_apply', step_pos]
      exact hj u (by omega)
  · rw [hend]
    exact hb

theorem markRay_of_exits (s : Safe) (fuel k : Nat) (start dir : Position) (hk : k ≤ fuel)
    (h : Exits s (entry start dir) k) :
    markRay fuel s start dir =
      some (((step s)^[k] (entry start dir)).1, ((step s)^[k] (entry start dir)).2,
        unique ((emptiesVisited s k (entry start dir)).insertionSort lexiComp)) := by
  have := loop_of_exits s k fuel (entry start dir) [] hk h
  simp only [entry] at this
  simp only [markRay, entry, this, List.nil_append]

theorem exits_of_markRay (s : Safe) (fuel : Nat) (start dir : Position)
    (r : Position × Position × List Position) (h : markRay fuel s start dir = some r) :
    ∃ k, k ≤ fuel ∧ Exits s (entry start dir) k ∧
      r = (((step s)^[k] (entry start dir)).1, ((step s)^[k] (entry start dir)).2,
        unique ((emptiesVisited s k (entry start dir)).insertionSort lexiComp)) := by
  cases hl : markRayLoop s fuel (entry start dir).1 (entry start dir).2 [] with
  | none =>
    simp only [entry] at hl
    simp [markRay, hl] at h
  | some r' =>
    obtain ⟨k, hk, hE⟩ := exits_of_loop s fuel (entry start dir) [] r' hl
    refine ⟨k, hk, hE, ?_⟩
    rw [markRay_of_exits s fuel k start dir hk hE] at h
    exact (Option.some.inj h).symm

theorem fuel_bound (R C : Int) (hr : 1 ≤ R) (hc : 1 ≤ C) :
    R.toNat * C.toNat * 4 = (4 * R * C).toNat := by
  apply Int.ofNat_inj.1
  have h1 : (0 : Int) ≤ 4 * R * C := by positivity
  rw [Int.toNat_of_nonneg h1]
  push_cast
  rw [Int.toNat_of_nonneg (by omega), Int.toNat_of_nonneg (by omega)]
  ring

/-- A beam that starts outside the grid leaves it again: `markRay` returns whenever its
budget is at least `4 * rows * columns` iterations. -/
theorem markRay_total (s : Safe) (start dir : Position) (hout : ¬ inGrid s start)
    (hu : axisUnit dir) (fuel : Nat) (hf : s.rows.toNat * s.columns.toNat * 4 ≤ fuel) :
    ∃ k, k ≤ s.rows.toNat * s.columns.toNat * 4 ∧ Exits s (entry start dir) k ∧
      markRay fuel s start dir =
        some (((step s)^[k] (entry start dir)).1, ((step s)^[k] (entry start dir)).2,
          unique ((emptiesVisited s k (entry start dir)).insertionSort lexiComp)) := by
  obtain ⟨k, hk, hE⟩ := exits_exists s start dir hout hu
  exact ⟨k, hk, hE, markRay_of_exits s fuel k start dir (le_trans hk hf) hE⟩

theorem visits_iff (s : Safe) (st : Position × Position) (k : Nat) (hE : Exits s st k)
    (p : Position) : Visits s st p ↔ ∃ j, j < k ∧ ((step s)^[j] st).1 = p := by
  constructor
  · rintro ⟨i, hin, hp⟩
    refine ⟨i, ?_, hp⟩
    by_contra hge
    exact hE.2 (hin k (by omega))
  · rintro ⟨j, hj, hp⟩
    exact ⟨j, fun l hl => hE.1 l (by omega), hp⟩

theorem mem_markRay_path (s : Safe) (fuel : Nat) (start dir e f : Position)
    (path : List Position) (h : markRay fuel s start dir = some (e, f, path)) (p : Position) :
    p ∈ path ↔ Visits s (entry start dir) p ∧ cellAt s p = Mirror.EMPTY := by
  obtain ⟨k, _, hE, hr⟩ := exits_of_markRay s fuel start dir _ h
  simp only [Prod.mk.injEq] at hr
  rw [hr.2.2, mem_sorted_path, mem_emptiesVisited, visits_iff s _ k hE]
  constructor
  · rintro ⟨j, hj, hp, hc⟩
    exact ⟨⟨j, hj, hp⟩, hc⟩
  · rintro ⟨⟨j, hj, hp⟩, hc⟩
    exact ⟨j, hj, hp, hc⟩

theorem visits_inGrid (s : Safe) (st : Position × Position) (p : Position)
    (h : Visits s st p) : inGrid s p := by
  obtain ⟨i, hin, hp⟩ := h
  exact hp ▸ hin i (le_refl _)

theorem visits_first (s : Safe) (st : Position × Position) (p : Position)
    (h : Visits s st p) :
    ∃ i, (∀ l, l ≤ i → inGrid s ((step s)^[l] st).1) ∧ ((step s)^[i] st).1 = p ∧
      ∀ l, l < i → ((step s)^[l] st).1 ≠ p := by
  classical
  obtain ⟨i, hin, hp⟩ := h
  have hex : ∃ l, ((step s)^[l] st).1 = p := ⟨i, hp⟩
  refine ⟨Nat.find hex, ?_, Nat.find_spec hex, fun l hl => Nat.find_min hex hl⟩
  intro l hl
  exact hin l (le_trans hl (Nat.find_min' hex hp))

theorem isOpen_iff (s : Safe) (hr : 1 ≤ s.rows) (hc : 1 ≤ s.columns) (fuel : Nat)
    (hf : (4 * s.rows * s.columns).toNat ≤ fuel) :
    isOpen fuel s ↔ ∃ k, Exits s (entry (0, -1) (0, 1)) k ∧
      ((step s)^[k] (entry (0, -1) (0, 1))).1 = (s.rows - 1, s.columns) := by
  rw [← fuel_bound _ _ hr hc] at hf
  obtain ⟨k, _, hE, hm⟩ := markRay_total s (0, -1) (0, 1) (by simp [inGrid]) (by decide) fuel hf
  simp only [isOpen, emitterExit, hm, Option.map_some', Option.some.injEq]
  constructor
  · intro h
    exact ⟨k, hE, h⟩
  · rintro ⟨k', hE', h⟩
    rw [exits_unique s _ k k' hE hE']
    exact h

theorem exists_mirror (d1 d2 : Position) (h1 : axisUnit d1) (h2 : axisUnit d2) :
    d1 = d2 ∨ ∃ m, reflect m d1 = (-d2.1, -d2.2) := by
  obtain ⟨a, b⟩ := d1
  obtain ⟨c, d⟩ := d2
  simp only [axisUnit] at h1 h2
  by_cases h : (a, b) = (c, d)
  · exact Or.inl h
  · right
    simp only [Prod.mk.injEq] at h
    by_cases hE : a = -c ∧ b = -d
    · exact ⟨Mirror.EMPTY, by simp [reflect, hE.1, hE.2]⟩
    · by_cases hS : b = c ∧ a = d
      · exact ⟨Mirror.SLASH, by simp [reflect, hS.1, hS.2]⟩
      · refine ⟨Mirror.BACKSLASH, ?_⟩
        simp only [reflect, Prod.mk.injEq]
        omega

theorem emitter_out (s : Safe) : ¬ inGrid s (0, -1) := by
  simp [inGrid]

theorem detector_out (s : Safe) : ¬ inGrid s (s.rows - 1, s.columns) := by
  simp [inGrid]

theorem entries_ne (s : Safe) : entry (0, -1) (0, 1) ≠ entry (s.rows - 1, s.columns) (0, -1) := by
  simp [entry]

/-- In one grid: the emitter beam reaches the cell `c` with direction `d1`, the detector
beam reaches it with direction `d2`, and the cell turns `d1` into the opposite of `d2`.
Then the emitter beam ends on the detector. -/
theorem join_at_cell (s : Safe) (c d1 d2 : Position) (i j : Nat)
    (hi : ∀ l, l ≤ i → inGrid s ((step s)^[l] (entry (0, -1) (0, 1))).1)
    (hj : ∀ l, l ≤ j → inGrid s ((step s)^[l] (entry (s.rows - 1, s.columns) (0, -1))).1)
    (hci : (step s)^[i] (entry (0, -1) (0, 1)) = (c, d1))
    (hcj : (step s)^[j] (entry (s.rows - 1, s.columns) (0, -1)) = (c, d2))
    (hm : reflect (cellAt s c) d1 = (-d2.1, -d2.2)) :
    ∃ k, Exits s (entry (0, -1) (0, 1)) k ∧
      ((step s)^[k] (entry (0, -1) (0, 1))).1 = (s.rows - 1, s.columns) := by
  have hjoin : step s ((step s)^[i] (entry (0, -1) (0, 1))) =
      rev ((step s)^[j] (entry (s.rows - 1, s.columns) (0, -1))) := by
    rw [hci, hcj]
    simp only [step, rev, hm, Prod.mk.injEq, and_true]
    constructor <;> omega
  obtain ⟨hE, hend⟩ := join_beams s (0, -1) (0, 1) (s.rows - 1, s.columns) (0, -1)
    (detector_out s) i j hi hj hjoin
  exact ⟨i + 1 + j, hE, by rw [hend]⟩

/-- The cells of the grid with a mirror put on `c` agree with the old ones away
from `c`. -/
theorem cellAt_placeMirror_ne (s : Safe) (hwf : s.WF) (c q : Position) (m : Mirror)
    (hc : inGrid s c) (hq : inGrid s q) (hne : q ≠ c) :
    cellAt (placeMirror s c m) q = cellAt s q := by
  rw [cellAt_placeMirror s hwf c q m hc hq, if_neg hne]

theorem cellAt_placeMirror_self (s : Safe) (hwf : s.WF) (c : Position) (m : Mirror)
    (hc : inGrid s c) : cellAt (placeMirror s c m) c = m := by
  rw [cellAt_placeMirror s hwf c c m hc hc, if_pos rfl]

/-- Up to its first visit of `c`, a beam runs the same in the grid with a mirror put
on `c`. -/
theorem iterate_placeMirror (s : Safe) (hwf : s.WF) (c : Position) (m : Mirror)
    (hc : inGrid s c) (st : Position × Position) (i : Nat)
    (hin : ∀ l, l < i → inGrid s ((step s)^[l] st).1)
    (hne : ∀ l, l < i → ((step s)^[l] st).1 ≠ c) :
    ∀ l, l ≤ i → (step (placeMirror s c m))^[l] st = (step s)^[l] st :=
  iterate_congr s (placeMirror s c m) st i
    (fun l hl => cellAt_placeMirror_ne s hwf c _ m hc (hin l hl) (hne l hl))

/-- The same, read from the grid that holds the mirror. -/
theorem iterate_placeMirror_inv (s : Safe) (hwf : s.WF) (c : Position) (m : Mirror)
    (hc : inGrid s c) (st : Position × Position) (i : Nat)
    (hin : ∀ l, l < i → inGrid s ((step (placeMirror s c m))^[l] st).1)
    (hne : ∀ l, l < i → ((step (placeMirror s c m))^[l] st).1 ≠ c) :
    ∀ l, l ≤ i → (step s)^[l] st = (step (placeMirror s c m))^[l] st :=
  iterate_congr (placeMirror s c m) s st i
    (fun l hl => (cellAt_placeMirror_ne s hwf c _ m hc (hin l hl) (hne l hl)).symm)

/-- Forward direction of the solver's correctness: an empty cell on both traces of a
closed safe opens the safe with one of the two mirrors. -/
theorem open_of_common (s : Safe) (hwf : s.WF) (c : Position)
    (hempty : cellAt s c = Mirror.EMPTY)
    (hclosed : ¬ ∃ k, Exits s (entry (0, -1) (0, 1)) k ∧
      ((step s)^[k] (entry (0, -1) (0, 1))).1 = (s.rows - 1, s.columns))
    (h1 : Visits s (entry (0, -1) (0, 1)) c)
    (h2 : Visits s (entry (s.rows - 1, s.columns) (0, -1)) c) :
    ∃ m, (m = Mirror.SLASH ∨ m = Mirror.BACKSLASH) ∧
      ∃ k, Exits (placeMirror s c m) (entry (0, -1) (0, 1)) k ∧
        ((step (placeMirror s c m))^[k] (entry (0, -1) (0, 1))).1 = (s.rows - 1, s.columns) := by
  have hc : inGrid s c := visits_inGrid s _ c h1
  obtain ⟨i, hi, hpi, hfi⟩ := visits_first s _ c h1
  obtain ⟨j, hj, hpj, hfj⟩ := visits_first s _ c h2
  have hu1 := iterate_axisUnit s (entry (0, -1) (0, 1)) (by decide) i
  have hu2 := iterate_axisUnit s (entry (s.rows - 1, s.columns) (0, -1))
    (show axisUnit ((0 : Int), (-1 : Int)) by decide) j
  have hne := beams_disjoint s (0, -1) (0, 1) (s.rows - 1, s.columns) (0, -1) (emitter_out s)
    (detector_out s) (entries_ne s) i j (fun l hl => hi l (by omega)) (fun l hl => hj l (by omega))
  have hci : (step s)^[i] (entry (0, -1) (0, 1)) =
      (c, ((step s)^[i] (entry (0, -1) (0, 1))).2) := Prod.ext hpi rfl
  have hcj : (step s)^[j] (entry (s.rows - 1, s.columns) (0, -1)) =
      (c, ((step s)^[j] (entry (s.rows - 1, s.columns) (0, -1))).2) := Prod.ext hpj rfl
  rcases exists_mirror _ _ hu1 hu2 with hd | ⟨m, hm⟩
  · exact absurd (Prod.ext (hpi.trans hpj.symm) hd) hne
  · have hkey : ∀ m', m = m' → m' ≠ Mirror.EMPTY →
        ∃ k, Exits (placeMirror s c m') (entry (0, -1) (0, 1)) k ∧
          ((step (placeMirror s c m'))^[k] (entry (0, -1) (0, 1))).1 =
            (s.rows - 1, s.columns) := by
      intro m' hmm _
      subst hmm
      have e1 := iterate_placeMirror s hwf c m hc (entry (0, -1) (0, 1)) i
        (fun l hl => hi l (by omega)) hfi
      have e2 := iterate_placeMirror s hwf c m hc (entry (s.rows - 1, s.columns) (0, -1)) j
        (fun l hl => hj l (by omega)) hfj
      refine join_at_cell (placeMirror s c m) c ((step s)^[i] (entry (0, -1) (0, 1))).2
        ((step s)^[j] (entry (s.rows - 1, s.columns) (0, -1))).2 i j ?_ ?_ ?_ ?_ ?_
      · intro l hl
        rw [e1 l hl]
        exact hi l hl
      · intro l hl
        show inGrid s ((step (placeMirror s c m))^[l] (entry (s.rows - 1, s.columns) (0, -1))).1
        rw [e2 l hl]
        exact hj l hl
      · rw [e1 i (le_refl _)]
        exact hci
      · show (step (placeMirror s c m))^[j] (entry (s.rows - 1, s.columns) (0, -1)) = _
        rw [e2 j (le_refl _)]
        exact hcj
      · rw [cellAt_placeMirror_self s hwf c m hc]
        exact hm
    cases m with
    | EMPTY =>
      exfalso
      apply hclosed
      exact join_at_cell s c _ _ i j hi hj hci hcj (by rw [hempty]; exact hm)
    | SLASH => exact ⟨Mirror.SLASH, Or.inl rfl, hkey _ rfl (by decide)⟩
    | BACKSLASH => exact ⟨Mirror.BACKSLASH, Or.inr rfl, hkey _ rfl (by decide)⟩

/-- A beam that leaves the grid at the detector position `(rows - 1, columns)` leaves
it heading right. -/
theorem exit_dir_detector (s : Safe) (st : Position × Position) (hu : axisUnit st.2) (k : Nat)
    (hE : Exits s st k) (hk : 1 ≤ k)
    (hpos : ((step s)^[k] st).1 = (s.rows - 1, s.columns)) :
    ((step s)^[k] st).2 = (0, 1) := by
  obtain ⟨k, rfl⟩ : ∃ n, k = n + 1 := ⟨k - 1, by omega⟩
  have hin := hE.1 k (by omega)
  have hu' := iterate_axisUnit s st hu (k + 1)
  rw [Function.iterate_succ_apply'] at hpos hu' ⊢
  rw [← step_pos s ((step s)^[k] st)] at hin
  generalize step s ((step s)^[k] st) = y at hpos hu' hin ⊢
  obtain ⟨⟨y1, y2⟩, ⟨a, b⟩⟩ := y
  simp only [rev, inGrid, axisUnit, Prod.mk.injEq] at hin hu' hpos ⊢
  omega

/-- Path reversal inside one grid: the beam sent back from the exit of a beam steps on
every cell that beam stepped on. -/
theorem reverse_visits (s : Safe) (a da b f : Position) (n : Nat)
    (hE : Exits s (entry a da) n) (hend : (step s)^[n] (entry a da) = (b, f)) (i : Nat)
    (hi : i < n) :
    Visits s (entry b (-f.1, -f.2)) ((step s)^[i] (entry a da)).1 := by
  have hrev : ∀ l, l < n → ((step s)^[l] (entry b (-f.1, -f.2))).1 =
      ((step s)^[n - 1 - l] (entry a da)).1 := by
    intro l hl
    rw [← rev_exit, ← hend, iterate_rev_le s _ n l (by omega)]
    obtain ⟨u, hu⟩ : ∃ u, n - l = u + 1 := ⟨n - l - 1, by omega⟩
    have hu' : n - 1 - l = u := by omega
    rw [hu, hu', Function.iterate_succ_apply', step_pos]
  refine ⟨n - 1 - i, ?_, ?_⟩
  · intro l hl
    rw [hrev l (by omega)]
    exact hE.1 _ (by omega)
  · rw [hrev _ (by omega)]
    congr 2
    omega

/-- A cell that a beam steps on in the grid with a mirror put on that cell, it steps
on in the grid without the mirror as well. -/
theorem visits_transfer (s : Safe) (hwf : s.WF) (c : Position) (m : Mirror) (hc : inGrid s c)
    (st : Position × Position) (h : Visits (placeMirror s c m) st c) : Visits s st c := by
  obtain ⟨i, hi, hpi, hfi⟩ := visits_first (placeMirror s c m) st c h
  have e := iterate_placeMirror_inv s hwf c m hc st i (fun l hl => hi l (by omega)) hfi
  refine ⟨i, ?_, ?_⟩
  · intro l hl
    rw [e l hl]
    exact hi l hl
  · rw [e i (le_refl _)]
    exact hpi

/-- Backward direction of the solver's correctness: a cell on which a mirror opens a
closed safe lies on both traces. -/
theorem common_of_open (s : Safe) (hwf : s.WF) (c : Position) (hc : inGrid s c) (m : Mirror)
    (hclosed : ¬ ∃ k, Exits s (entry (0, -1) (0, 1)) k ∧
      ((step s)^[k] (entry (0, -1) (0, 1))).1 = (s.rows - 1, s.columns))
    (hopen : ∃ k, Exits (placeMirror s c m) (entry (0, -1) (0, 1)) k ∧
      ((step (placeMirror s c m))^[k] (entry (0, -1) (0, 1))).1 = (s.rows - 1, s.columns)) :
    Visits s (entry (0, -1) (0, 1)) c ∧ Visits s (entry (s.rows - 1, s.columns) (0, -1)) c := by
  obtain ⟨n, hE, hpos⟩ := hopen
  have hvis : ∃ i, i < n ∧ ((step (placeMirror s c m))^[i] (entry (0, -1) (0, 1))).1 = c := by
    by_contra hno
    push_neg at hno
    have e := iterate_placeMirror_inv s hwf c m hc (entry (0, -1) (0, 1)) n hE.1 hno
    apply hclosed
    refine ⟨n, ⟨?_, ?_⟩, ?_⟩
    · intro l hl
      rw [e l (by omega)]
      exact hE.1 l hl
    · rw [e n (le_refl _)]
      exact hE.2
    · rw [e n (le_refl _)]
      exact hpos
  obtain ⟨i, hi, hpi⟩ := hvis
  have hn : 1 ≤ n := by omega
  have hdir := exit_dir_detector (placeMirror s c m) (entry (0, -1) (0, 1)) (by decide) n hE hn
    hpos
  have hend : (step (placeMirror s c m))^[n] (entry (0, -1) (0, 1)) =
      ((s.rows - 1, s.columns), (0, 1)) := Prod.ext hpos hdir
  constructor
  · exact visits_transfer s hwf c m hc _ ⟨i, fun l hl => hE.1 l (by omega), hpi⟩
  · have hv := reverse_visits (placeMirror s c m) (0, -1) (0, 1) (s.rows - 1, s.columns) (0, 1) n
      hE hend i hi
    rw [hpi] at hv
    simp only [neg_zero] at hv
    exact visits_transfer s hwf c m hc _ hv

theorem markRay_path_sorted (s : Safe) (fuel : Nat) (start dir e f : Position)
    (path : List Position) (h : markRay fuel s start dir = some (e, f, path)) :
    path.Pairwise pairLt := by
  obtain ⟨k, _, _, hr⟩ := exits_of_markRay s fuel start dir _ h
  simp only [Prod.mk.injEq] at hr
  rw [hr.2.2]
  exact sorted_path _

theorem markRay_path_inGrid (s : Safe) (fuel : Nat) (start dir e f : Position)
    (path : List Position) (h : markRay fuel s start dir = some (e, f, path)) (p : Position)
    (hp : p ∈ path) : inGrid s p :=
  visits_inGrid s _ p ((mem_markRay_path s fuel start dir e f path h p).1 hp).1

/-- The result of `testSecurity` when the emitter beam does not end on the detector, in
terms of the list of the elements of the first trace found in the second. -/
theorem testSecurity_closed_eq (s : Safe) (fuel : Nat) (e1 f1 e2 f2 : Position)
    (dp tp : List Position)
    (h1 : markRay fuel s (0, -1) (0, 1) = some (e1, f1, dp))
    (h2 : markRay fuel s (s.rows - 1, s.columns) (0, -1) = some (e2, f2, tp))
    (hclosed : e1 ≠ (s.rows - 1, s.columns)) :
    testSecurity fuel s = some
      (if dp.filter (fun p => decide (p ∈ tp)) = [] then "impossible"
       else toString (((dp.filter (fun p => decide (p ∈ tp))).length : Nat) : Int) ++ " " ++
        toString ((((dp.filter (fun p => decide (p ∈ tp))).head?).getD (-1, -1)).1 + 1) ++ " " ++
        toString ((((dp.filter (fun p => decide (p ∈ tp))).head?).getD (-1, -1)).2 + 1)) := by
  have hs1 := markRay_path_sorted s fuel _ _ _ _ _ h1
  have hs2 := markRay_path_sorted s fuel _ _ _ _ _ h2
  have hrow : ∀ p ∈ dp, p.1 ≠ -1 := by
    intro p hp
    have := markRay_path_inGrid s fuel _ _ _ _ _ h1 p hp
    simp only [inGrid] at this
    omega
  have hne : ¬ (e1.1 = s.rows - 1 ∧ e1.2 = s.columns) := by
    intro h
    exact hclosed (Prod.ext h.1 h.2)
  simp only [testSecurity, h1, h2, if_neg hne, intersectLoop_spec dp hs1 hrow tp hs2, mergeResult,
    zero_add, if_true]
  by_cases hnil : dp.filter (fun p => decide (p ∈ tp)) = []
  · simp [hnil]
  · have hlen : ((dp.filter (fun p => decide (p ∈ tp))).length : Int) ≠ 0 := by
      simpa using hnil
    simp only [if_neg hnil, if_neg hlen]

theorem testSecurity_open_eq (s : Safe) (fuel : Nat) (e1 f1 : Position) (dp : List Position)
    (h1 : markRay fuel s (0, -1) (0, 1) = some (e1, f1, dp))
    (hopen : e1 = (s.rows - 1, s.columns)) : testSecurity fuel s = some "0" := by
  subst hopen
  simp [testSecurity, h1]

theorem isOpen_of_markRay (s : Safe) (fuel : Nat) (e1 f1 : Position) (dp : List Position)
    (h1 : markRay fuel s (0, -1) (0, 1) = some (e1, f1, dp)) :
    isOpen fuel s ↔ e1 = (s.rows - 1, s.columns) := by
  simp [isOpen, emitterExit, h1]

theorem filter_mem_length (l1 l2 : List Position) (h : l1.Nodup) :
    (l1.filter (fun p => decide (p ∈ l2))).length = (l1.toFinset ∩ l2.toFinset).card := by
  rw [← List.toFinset_card_of_nodup (h.filter _)]
  congr 1
  ext x
  simp

theorem head_filter_min (l : List Position) (h : l.Pairwise pairLt) (x : Position)
    (hx : l.head? = some x) : x ∈ l ∧ ∀ q ∈ l, q = x ∨ pairLt x q := by
  cases l with
  | nil => simp at hx
  | cons a rest =>
    simp only [List.head?_cons, Option.some.injEq] at hx
    subst hx
    refine ⟨List.mem_cons_self _ _, ?_⟩
    intro q hq
    rcases List.mem_cons.1 hq with rfl | hq
    · exact Or.inl rfl
    · exact Or.inr ((List.pairwise_cons.1 h).1 q hq)

theorem isOpen_placeMirror_iff (s : Safe) (hr : 1 ≤ s.rows) (hc : 1 ≤ s.columns) (fuel : Nat)
    (hf : (4 * s.rows * s.columns).toNat ≤ fuel) (c : Position) (m : Mirror) :
    isOpen fuel (placeMirror s c m) ↔
      ∃ k, Exits (placeMirror s c m) (entry (0, -1) (0, 1)) k ∧
        ((step (placeMirror s c m))^[k] (entry (0, -1) (0, 1))).1 = (s.rows - 1, s.columns) :=
  isOpen_iff (placeMirror s c m) hr hc fuel hf

/-- On a closed safe, a cell lies on both traces exactly when the brute force test
succeeds on it. -/
theorem common_iff_opens (s : Safe) (hwf : s.WF) (hr : 1 ≤ s.rows) (hc : 1 ≤ s.columns)
    (fuel : Nat) (hf : (4 * s.rows * s.columns).toNat ≤ fuel) (hclosed : ¬ isOpen fuel s)
    (e1 f1 e2 f2 : Position) (dp tp : List Position)
    (h1 : markRay fuel s (0, -1) (0, 1) = some (e1, f1, dp))
    (h2 : markRay fuel s (s.rows - 1, s.columns) (0, -1) = some (e2, f2, tp))
    (c : Position) (hcin : inGrid s c) :
    (c ∈ dp ∧ c ∈ tp) ↔ opensWithMirror fuel s c := by
  rw [isOpen_iff s hr hc fuel hf] at hclosed
  rw [mem_markRay_path s fuel _ _ _ _ _ h1 c, mem_markRay_path s fuel _ _ _ _ _ h2 c]
  constructor
  · rintro ⟨⟨hv1, hempty⟩, hv2, _⟩
    refine ⟨hempty, ?_⟩
    obtain ⟨m, hm, hopen⟩ := open_of_common s hwf c hempty hclosed hv1 hv2
    rcases hm with rfl | rfl
    · exact Or.inl ((isOpen_placeMirror_iff s hr hc fuel hf c _).2 hopen)
    · exact Or.inr ((isOpen_placeMirror_iff s hr hc fuel hf c _).2 hopen)
  · rintro ⟨hempty, hopen | hopen⟩
    · have := common_of_open s hwf c hcin _ hclosed
        ((isOpen_placeMirror_iff s hr hc fuel hf c _).1 hopen)
      exact ⟨⟨this.1, hempty⟩, this.2, hempty⟩
    · have := common_of_open s hwf c hcin _ hclosed
        ((isOpen_placeMirror_iff s hr hc fuel hf c _).1 hopen)
      exact ⟨⟨this.1, hempty⟩, this.2, hempty⟩

theorem common_length_eq_bruteForceCount (s : Safe) (hwf : s.WF) (hr : 1 ≤ s.rows)
    (hc : 1 ≤ s.columns) (fuel : Nat) (hf : (4 * s.rows * s.columns).toNat ≤ fuel)
    (hclosed : ¬ isOpen fuel s) (e1 f1 e2 f2 : Position) (dp tp : List Position)
    (h1 : markRay fuel s (0, -1) (0, 1) = some (e1, f1, dp))
    (h2 : markRay fuel s (s.rows - 1, s.columns) (0, -1) = some (e2, f2, tp)) :
    (dp.filter (fun p => decide (p ∈ tp))).length = bruteForceCount fuel s := by
  rw [filter_mem_length dp tp (nodup_of_sorted dp (markRay_path_sorted s fuel _ _ _ _ _ h1)),
    bruteForceCount]
  congr 1
  ext c
  have hgrid : c ∈ Finset.Ico 0 s.rows ×ˢ Finset.Ico 0 s.columns ↔ inGrid s c := by
    simp only [Finset.mem_product, Finset.mem_Ico, inGrid]
    tauto
  simp only [Finset.mem_inter, List.mem_toFinset, Finset.mem_filter, hgrid]
  constructor
  · intro h
    have hin := markRay_path_inGrid s fuel _ _ _ _ _ h1 c h.1
    exact ⟨hin, (common_iff_opens s hwf hr hc fuel hf hclosed _ _ _ _ _ _ h1 h2 c hin).1 h⟩
  · rintro ⟨hin, h⟩
    exact (common_iff_opens s hwf hr hc fuel hf hclosed _ _ _ _ _ _ h1 h2 c hin).2 h

theorem markRay_emitter_total (s : Safe) (hr : 1 ≤ s.rows) (hc : 1 ≤ s.columns) (fuel : Nat)
    (hf : (4 * s.rows * s.columns).toNat ≤ fuel) :
    ∃ e f path, markRay fuel s (0, -1) (0, 1) = some (e, f, path) := by
  rw [← fuel_bound _ _ hr hc] at hf
  obtain ⟨k, _, _, hm⟩ := markRay_total s (0, -1) (0, 1) (emitter_out s) (by decide) fuel hf
  exact ⟨_, _, _, hm⟩

theorem markRay_detector_total (s : Safe) (hr : 1 ≤ s.rows) (hc : 1 ≤ s.columns) (fuel : Nat)
    (hf : (4 * s.rows * s.columns).toNat ≤ fuel) :
    ∃ e f path, markRay fuel s (s.rows - 1, s.columns) (0, -1) = some (e, f, path) := by
  rw [← fuel_bound _ _ hr hc] at hf
  obtain ⟨k, _, _, hm⟩ := markRay_total s (s.rows - 1, s.columns) (0, -1) (detector_out s)
    (by decide) fuel hf
  exact ⟨_, _, _, hm⟩

theorem cellAt_noMirrors (s : Safe) (hno : noMirrors s) (p : Position) :
    cellAt s p = Mirror.EMPTY := by
  simp only [cellAt, List.getD_eq_getElem?_getD]
  cases hrow : s.grid[p.1.toNat]? with
  | none => simp
  | some row =>
    have hmem : row ∈ s.grid := List.mem_iff_getElem?.2 ⟨_, hrow⟩
    simp only [Option.getD_some]
    cases hcell : row[p.2.toNat]? with
    | none => simp
    | some m =>
      simp only [Option.getD_some]
      exact hno row hmem m (List.mem_iff_getElem?.2 ⟨_, hcell⟩)

theorem iterate_noMirrors (s : Safe) (hno : noMirrors s) (p d : Position) (j : Nat) :
    (step s)^[j] (p, d) = ((p.1 + j * d.1, p.2 + j * d.2), d) := by
  induction j with
  | zero => simp
  | succ j ih =>
    rw [Function.iterate_succ_apply', ih]
    simp only [step, cellAt_noMirrors s hno, reflect, Prod.mk.injEq, and_true]
    constructor <;> push_cast <;> ring

theorem exits_emitter_noMirrors (s : Safe) (hno : noMirrors s) (hr : 1 ≤ s.rows)
    (hc : 1 ≤ s.columns) :
    Exits s (entry (0, -1) (0, 1)) s.columns.toNat ∧
      (step s)^[s.columns.toNat] (entry (0, -1) (0, 1)) = ((0, s.columns), (0, 1)) := by
  have hcol : ((s.columns.toNat : Nat) : Int) = s.columns := Int.toNat_of_nonneg (by omega)
  refine ⟨⟨?_, ?_⟩, ?_⟩
  · intro j hj
    have hj' : (j : Int) < s.columns := by omega
    rw [entry, iterate_noMirrors s hno]
    simp only [inGrid]
    omega
  · rw [entry, iterate_noMirrors s hno]
    simp only [inGrid]
    omega
  · rw [entry, iterate_noMirrors s hno]
    simp only [Prod.mk.injEq, and_true]
    omega

theorem visits_emitter_noMirrors (s : Safe) (hno : noMirrors s) (p : Position)
    (h : Visits s (entry (0, -1) (0, 1)) p) : p.1 = 0 := by
  obtain ⟨i, _, hp⟩ := h
  rw [entry, iterate_noMirrors s hno] at hp
  rw [← hp]
  simp

theorem visits_detector_noMirrors (s : Safe) (hno : noMirrors s) (p : Position)
    (h : Visits s (entry (s.rows - 1, s.columns) (0, -1)) p) : p.1 = s.rows - 1 := by
  obtain ⟨i, _, hp⟩ := h
  rw [entry, iterate_noMirrors s hno] at hp
  rw [← hp]
  simp

theorem markRay_emitter_noMirrors (s : Safe) (hno : noMirrors s) (hr : 1 ≤ s.rows)
    (hc : 1 ≤ s.columns) (fuel : Nat) (hf : (4 * s.rows * s.columns).toNat ≤ fuel) :
    ∃ path, markRay fuel s (0, -1) (0, 1) = some ((0, s.columns), (0, 1), path) := by
  rw [← fuel_bound _ _ hr hc] at hf
  obtain ⟨k, _, hE, hm⟩ := markRay_total s (0, -1) (0, 1) (emitter_out s) (by decide) fuel hf
  obtain ⟨hE', hend⟩ := exits_emitter_noMirrors s hno hr hc
  have hk := exits_unique s _ _ _ hE hE'
  subst hk
  rw [hend] at hm
  exact ⟨_, hm⟩

theorem testSecurity_noMirrors_row (s : Safe) (hno : noMirrors s) (hr : 1 ≤ s.rows)
    (hc : 1 ≤ s.columns) (fuel : Nat) (hf : (4 * s.rows * s.columns).toNat ≤ fuel)
    (h1 : s.rows = 1) : testSecurity fuel s = some "0" := by
  obtain ⟨path, hm⟩ := markRay_emitter_noMirrors s hno hr hc fuel hf
  exact testSecurity_open_eq s fuel _ _ _ hm (by rw [h1]; rfl)

theorem testSecurity_noMirrors_rows (s : Safe) (hno : noMirrors s) (hr : 2 ≤ s.rows)
    (hc : 1 ≤ s.columns) (fuel : Nat) (hf : (4 * s.rows * s.columns).toNat ≤ fuel) :
    testSecurity fuel s = some "impossible" := by
  obtain ⟨dp, h1⟩ := markRay_emitter_noMirrors s hno (by omega) hc fuel hf
  obtain ⟨e2, f2, tp, h2⟩ := markRay_detector_total s (by omega) hc fuel hf
  have hne : ((0 : Int), s.columns) ≠ (s.rows - 1, s.columns) := by
    simp only [ne_eq, Prod.mk.injEq, and_true]
    omega
  rw [testSecurity_closed_eq s fuel _ _ _ _ dp tp h1 h2 hne]
  have hnil : dp.filter (fun p => decide (p ∈ tp)) = [] := by
    apply List.eq_nil_iff_forall_not_mem.2
    intro p hp
    simp only [List.mem_filter, decide_eq_true_eq] at hp
    have a1 := visits_emitter_noMirrors s hno p
      ((mem_markRay_path s fuel _ _ _ _ _ h1 p).1 hp.1).1
    have a2 := visits_detector_noMirrors s hno p
      ((mem_markRay_path s fuel _ _ _ _ _ h2 p).1 hp.2).1
    omega
  rw [if_pos hnil]

theorem cellAt_mem (s : Safe) (hwf : s.WF) (p : Position) (hp : inGrid s p) :
    ∃ row, row ∈ s.grid ∧ cellAt s p ∈ row := by
  obtain ⟨p1, p2⟩ := p
  simp only [inGrid] at hp
  have hrow : p1.toNat < s.grid.length := by rw [hwf.1]; omega
  have hcol : p2.toNat < (s.grid[p1.toNat]).length := by
    rw [hwf.2 _ (List.getElem_mem _)]; omega
  refine ⟨s.grid[p1.toNat], List.getElem_mem _, ?_⟩
  simp only [cellAt, List.getD_eq_getElem?_getD, List.getElem?_eq_getElem hrow,
    Option.getD_some, List.getElem?_eq_getElem hcol]
  exact List.getElem_mem _

theorem cellAt_allMirrors (s : Safe) (hwf : s.WF) (hall : allMirrors s) (p : Position)
    (hp : inGrid s p) : cellAt s p ≠ Mirror.EMPTY := by
  obtain ⟨row, hrow, hmem⟩ := cellAt_mem s hwf p hp
  exact hall row hrow _ hmem

theorem markRay_path_nil_of_allMirrors (s : Safe) (hwf : s.WF) (hall : allMirrors s)
    (fuel : Nat) (start dir e f : Position) (path : List Position)
    (h : markRay fuel s start dir = some (e, f, path)) : path = [] := by
  apply List.eq_nil_iff_forall_not_mem.2
  intro p hp
  have hv := (mem_markRay_path s fuel start dir e f path h p).1 hp
  exact cellAt_allMirrors s hwf hall p (visits_inGrid s _ p hv.1) hv.2

/-- The constructor's loop over one list of positions, as mirrors put on a safe one
after the other. -/
theorem foldl_setCell_eq (r c : Int) (m : Mirror) (l : List Position) (g : MirrorGrid) :
    ({ grid := l.foldl (fun g p => setCell g p m) g, rows := r, columns := c } : Safe) =
      l.foldl (fun s p => placeMirror s p m) { grid := g, rows := r, columns := c } := by
  induction l generalizing g with
  | nil => rfl
  | cons p rest ih =>
    simp only [List.foldl_cons]
    rw [ih]
    rfl

theorem foldl_placeMirror_spec (m : Mirror) (l : List Position) :
    ∀ s : Safe, s.WF → (∀ p ∈ l, inGrid s p) →
      (l.foldl (fun s p => placeMirror s p m) s).WF ∧
      (l.foldl (fun s p => placeMirror s p m) s).rows = s.rows ∧
      (l.foldl (fun s p => placeMirror s p m) s).columns = s.columns ∧
      ∀ q, inGrid s q →
        cellAt (l.foldl (fun s p => placeMirror s p m) s) q = if q ∈ l then m else cellAt s q := by
  induction l with
  | nil =>
    intro s hwf _
    exact ⟨hwf, rfl, rfl, fun q _ => by simp⟩
  | cons p rest ih =>
    intro s hwf hin
    have hp : inGrid s p := hin p (List.mem_cons_self _ _)
    obtain ⟨h1, h2, h3, h4⟩ := ih (placeMirror s p m) (placeMirror_WF s hwf p m)
      (fun q hq => hin q (List.mem_cons_of_mem _ hq))
    refine ⟨h1, h2, h3, ?_⟩
    intro q hq
    simp only [List.foldl_cons]
    rw [h4 q hq, cellAt_placeMirror s hwf p q m hp hq]
    by_cases hqr : q ∈ rest
    · simp [hqr]
    · by_cases hqp : q = p
      · simp [hqp]
      · simp [hqr, hqp]

theorem emptyGrid_WF (r c : Int) :
    ({ grid := List.replicate r.toNat (List.replicate c.toNat Mirror.EMPTY),
       rows := r, columns := c } : Safe).WF := by
  refine ⟨by simp, ?_⟩
  intro row hrow
  rw [List.eq_of_mem_replicate hrow]
  simp

theorem emptyGrid_noMirrors (r c : Int) :
    noMirrors
      ({ grid := List.replicate r.toNat (List.replicate c.toNat Mirror.EMPTY),
         rows := r, columns := c } : Safe) := by
  intro row hrow m hm
  rw [List.eq_of_mem_replicate hrow] at hm
  exact List.eq_of_mem_replicate hm

theorem build_eq (r c : Int) (slashes backslashes : List Position) :
    Safe.build r c slashes backslashes =
      backslashes.foldl (fun s p => placeMirror s p Mirror.BACKSLASH)
        (slashes.foldl (fun s p => placeMirror s p Mirror.SLASH)
          { grid := List.replicate r.toNat (List.replicate c.toNat Mirror.EMPTY),
            rows := r, columns := c }) := by
  simp only [Safe.build]
  rw [← foldl_setCell_eq r c Mirror.SLASH slashes]
  have h := foldl_setCell_eq r c Mirror.BACKSLASH backslashes
    (slashes.foldl (fun g p => setCell g p Mirror.SLASH)
      (List.replicate r.toNat (List.replicate c.toNat Mirror.EMPTY)))
  exact h

/-- What the constructor builds from in-range positions: a well-formed grid whose cell
`q` holds `\` if `q` is in the second list, else `/` if it is in the first list, else
nothing. -/
theorem build_spec (r c : Int) (slashes backslashes : List Position)
    (hs : ∀ p ∈ slashes, 0 ≤ p.1 ∧ p.1 < r ∧ 0 ≤ p.2 ∧ p.2 < c)
    (hb : ∀ p ∈ backslashes, 0 ≤ p.1 ∧ p.1 < r ∧ 0 ≤ p.2 ∧ p.2 < c) :
    (Safe.build r c slashes backslashes).WF ∧
      (Safe.build r c slashes backslashes).rows = r ∧
      (Safe.build r c slashes backslashes).columns = c ∧
      ∀ q : Position, 0 ≤ q.1 ∧ q.1 < r ∧ 0 ≤ q.2 ∧ q.2 < c →
        cellAt (Safe.build r c slashes backslashes) q =
          if q ∈ backslashes then Mirror.BACKSLASH
          else if q ∈ slashes then Mirror.SLASH else Mirror.EMPTY := by
  rw [build_eq]
  have hin : ∀ (s : Safe), s.rows = r → s.columns = c → ∀ q : Position,
      (0 ≤ q.1 ∧ q.1 < r ∧ 0 ≤ q.2 ∧ q.2 < c) → inGrid s q := by
    intro s h1 h2 q hq
    simp only [inGrid, h1, h2]
    omega
  obtain ⟨a1, a2, a3, a4⟩ := foldl_placeMirror_spec Mirror.SLASH slashes _ (emptyGrid_WF r c)
    (fun p hp => hin _ rfl rfl p (hs p hp))
  obtain ⟨b1, b2, b3, b4⟩ := foldl_placeMirror_spec Mirror.BACKSLASH backslashes _ a1
    (fun p hp => hin _ a2 a3 p (hb p hp))
  refine ⟨b1, b2.trans a2, b3.trans a3, ?_⟩
  intro q hq
  rw [b4 q (hin _ a2 a3 q hq), a4 q (hin _ rfl rfl q hq),
    cellAt_noMirrors _ (emptyGrid_noMirrors r c)]

theorem markRay_of_no_cells (s : Safe) (hno : ∀ p, ¬ inGrid s p) (fuel : Nat)
    (start dir : Position) :
    markRay fuel s start dir = some ((start.1 + dir.1, start.2 + dir.2), dir, []) := by
  have hE : Exits s (entry start dir) 0 := ⟨fun j hj => absurd hj (Nat.not_lt_zero j), hno _⟩
  rw [markRay_of_exits s fuel 0 start dir (Nat.zero_le _) hE]
  rfl

theorem testSecurity_total (s : Safe) (hr : 1 ≤ s.rows) (hc : 1 ≤ s.columns) (fuel : Nat)
    (hf : (4 * s.rows * s.columns).toNat ≤ fuel) :
    testSecurity fuel s = some "0" ∨ testSecurity fuel s = some "impossible" ∨
      ∃ (n : Nat) (r c : Int), testSecurity fuel s =
        some (toString (n : Int) ++ " " ++ toString (r + 1) ++ " " ++ toString (c + 1)) := by
  obtain ⟨e1, f1, dp, h1⟩ := markRay_emitter_total s hr hc fuel hf
  obtain ⟨e2, f2, tp, h2⟩ := markRay_detector_total s hr hc fuel hf
  by_cases he : e1 = (s.rows - 1, s.columns)
  · exact Or.inl (testSecurity_open_eq s fuel e1 f1 dp h1 he)
  · right
    rw [testSecurity_closed_eq s fuel e1 f1 e2 f2 dp tp h1 h2 he]
    by_cases hnil : dp.filter (fun p => decide (p ∈ tp)) = []
    · left
      rw [if_pos hnil]
    · right
      rw [if_neg hnil]
      exact ⟨_, _, _, rfl⟩

/-- A safe without cells (`rows <= 0` or `columns <= 0`): both traces are empty, and
the emitter beam stops at `(0, 0)`, which is the detector position only for one row
of zero columns. -/
theorem testSecurity_no_cells (s : Safe) (h0 : s.rows ≤ 0 ∨ s.columns ≤ 0) (fuel : Nat) :
    testSecurity fuel s =
      some (if s.rows = 1 ∧ s.columns = 0 then "0" else "impossible") := by
  have hno : ∀ p, ¬ inGrid s p := by
    intro p hp
    simp only [inGrid] at hp
    omega
  have h1 := markRay_of_no_cells s hno fuel (0, -1) (0, 1)
  have h2 := markRay_of_no_cells s hno fuel (s.rows - 1, s.columns) (0, -1)
  by_cases h : s.rows = 1 ∧ s.columns = 0
  · rw [if_pos h]
    apply testSecurity_open_eq s fuel _ _ _ h1
    simp only [Prod.mk.injEq]
    omega
  · rw [if_neg h, testSecurity_closed_eq s fuel _ _ _ _ [] [] h1 h2]
    · rfl
    · simp only [ne_eq, Prod.mk.injEq]
      omega

theorem construct_eq_build (r c : Int) (slashes backslashes : List Position)
    (h : 0 ≤ r ∧ (r = 0 ∨ 0 ≤ c)) :
    Safe.construct r c slashes backslashes = some (Safe.build r c slashes backslashes) := by
  have h1 : ¬ r < 0 := by omega
  have h2 : ¬ (0 < r ∧ c < 0) := by omega
  simp only [Safe.construct, if_neg h1, if_neg h2]

theorem construct_eq_none (r c : Int) (slashes backslashes : List Position)
    (h : r < 0 ∨ (1 ≤ r ∧ c < 0)) : Safe.construct r c slashes backslashes = none := by
  by_cases h1 : r < 0
  · simp only [Safe.construct, if_pos h1]
  · have h2 : 0 < r ∧ c < 0 := by omega
    simp only [Safe.construct, if_neg h1, if_pos h2]

theorem build_rows (r c : Int) (slashes backslashes : List Position) :
    (Safe.build r c slashes backslashes).rows = r := rfl

theorem build_columns (r c : Int) (slashes backslashes : List Position) :
    (Safe.build r c slashes backslashes).columns = c := rfl

theorem exits_pos_of_entry_inGrid (s : Safe) (st : Position × Position) (k : Nat)
    (hE : Exits s st k) (hin : inGrid s st.1) : 1 ≤ k := by
  rcases Nat.eq_zero_or_pos k with h | h
  · subst h
    exact absurd hin hE.2
  · exact h

/-- The state in which the loop stops: outside the grid, one step beyond a cell of the
grid, with an axis-aligned unit direction. -/
theorem exit_state (s : Safe) (st : Position × Position) (hu : axisUnit st.2) (k : Nat)
    (hE : Exits s st k) (hk : 1 ≤ k) :
    ¬ inGrid s ((step s)^[k] st).1 ∧
      inGrid s (rev ((step s)^[k] st)).1 ∧ axisUnit ((step s)^[k] st).2 := by
  refine ⟨hE.2, ?_, iterate_axisUnit s st hu k⟩
  obtain ⟨k, rfl⟩ : ∃ n, k = n + 1 := ⟨k - 1, by omega⟩
  rw [Function.iterate_succ_apply', step_pos]
  exact hE.1 k (by omega)

/-- Two strictly increasing lists with the same elements are equal. -/
theorem sorted_ext (l1 l2 : List Position) (h1 : l1.Pairwise pairLt) (h2 : l2.Pairwise pairLt)
    (h : ∀ p, p ∈ l1 ↔ p ∈ l2) : l1 = l2 := by
  haveI : IsAntisymm Position pairLt := ⟨fun a b hab hba => absurd hba (pairLt_asymm a b hab)⟩
  exact List.eq_of_perm_of_sorted
    ((List.perm_ext_iff_of_nodup (nodup_of_sorted l1 h1) (nodup_of_sorted l2 h2)).2 h) h1 h2

theorem sorted_path_congr (l1 l2 : List Position) (h : ∀ p, p ∈ l1 ↔ p ∈ l2) :
    unique (l1.insertionSort lexiComp) = unique (l2.insertionSort lexiComp) := by
  apply sorted_ext _ _ (sorted_path l1) (sorted_path l2)
  intro p
  rw [mem_sorted_path, mem_sorted_path, h]

/-- Path reversal on states: the beam sent back from the exit of a beam that entered
from outside runs the same number of iterations, over the same cells in the opposite
order, and stops at the start of the first beam with the opposite of its direction. -/
theorem reverse_exits (s : Safe) (start dir e f : Position) (k : Nat)
    (hout : ¬ inGrid s start) (hE : Exits s (entry start dir) k)
    (hend : (step s)^[k] (entry start dir) = (e, f)) :
    Exits s (entry e (-f.1, -f.2)) k ∧
      (step s)^[k] (entry e (-f.1, -f.2)) = (start, (-dir.1, -dir.2)) ∧
      ∀ l, l < k → ((step s)^[l] (entry e (-f.1, -f.2))).1 =
        ((step s)^[k - 1 - l] (entry start dir)).1 := by
  have hrev : ∀ l, l < k → ((step s)^[l] (entry e (-f.1, -f.2))).1 =
      ((step s)^[k - 1 - l] (entry start dir)).1 := by
    intro l hl
    rw [← rev_exit, ← hend, iterate_rev_le s _ k l (by omega)]
    obtain ⟨u, hu⟩ : ∃ u, k - l = u + 1 := ⟨k - l - 1, by omega⟩
    have hu' : k - 1 - l = u := by omega
    rw [hu, hu', Function.iterate_succ_apply', step_pos]
  have hlast : (step s)^[k] (entry e (-f.1, -f.2)) = (start, (-dir.1, -dir.2)) := by
    rw [← rev_exit, ← hend, iterate_rev, rev_entry]
  refine ⟨⟨?_, ?_⟩, hlast, hrev⟩
  · intro l hl
    rw [hrev l hl]
    exact hE.1 _ (by omega)
  · rw [hlast]
    exact hout

theorem reverse_emptiesVisited (s : Safe) (start dir e f : Position) (k : Nat)
    (hout : ¬ inGrid s start) (hE : Exits s (entry start dir) k)
    (hend : (step s)^[k] (entry start dir) = (e, f)) (p : Position) :
    p ∈ emptiesVisited s k (entry e (-f.1, -f.2)) ↔ p ∈ emptiesVisited s k (entry start dir) := by
  obtain ⟨_, _, hrev⟩ := reverse_exits s start dir e f k hout hE hend
  rw [mem_emptiesVisited, mem_emptiesVisited]
  constructor
  · rintro ⟨j, hj, hp, hc⟩
    exact ⟨k - 1 - j, by omega, by rw [← hrev j hj]; exact hp, hc⟩
  · rintro ⟨j, hj, hp, hc⟩
    refine ⟨k - 1 - j, by omega, ?_, hc⟩
    rw [hrev _ (by omega)]
    have : k - 1 - (k - 1 - j) = j := by omega
    rw [this]
    exact hp

theorem reverse_markRay_of_out (s : Safe) (fuel : Nat) (start dir e f : Position)
    (path : List Position) (hout : ¬ inGrid s start)
    (h : markRay fuel s start dir = some (e, f, path)) :
    markRay fuel s e (-f.1, -f.2) = some (start, (-dir.1, -dir.2), path) := by
  obtain ⟨k, hk, hE, hr⟩ := exits_of_markRay s fuel start dir _ h
  simp only [Prod.mk.injEq] at hr
  have hend : (step s)^[k] (entry start dir) = (e, f) := Prod.ext hr.1.symm hr.2.1.symm
  obtain ⟨hE', hlast, _⟩ := reverse_exits s start dir e f k hout hE hend
  rw [markRay_of_exits s fuel k e (-f.1, -f.2) hk hE', hlast, hr.2.2,
    sorted_path_congr _ _ (reverse_emptiesVisited s start dir e f k hout hE hend)]

/-- C1. Solver against brute force.  On a grid with `rows, columns >= 1` whose emitter
beam does not end on the detector position `(rows - 1, columns)`, both traces are
returned, an in-range cell lies on both of them if and only if it is `EMPTY` and a `/`
or a `\` put on it makes the emitter beam end on the detector, and `testSecurity`
reports the number of such cells (`"impossible"` when there is none). -/
theorem solver_matches_brute_force (s : Safe) (hwf : s.WF) (hr : 1 ≤ s.rows)
    (hc : 1 ≤ s.columns) (fuel : Nat) (hf : (4 * s.rows * s.columns).toNat ≤ fuel)
    (hclosed : ¬ isOpen fuel s) :
    ∃ e1 f1 defaultPath e2 f2 targetPath,
      markRay fuel s (0, -1) (0, 1) = some (e1, f1, defaultPath) ∧
      markRay fuel s (s.rows - 1, s.columns) (0, -1) = some (e2, f2, targetPath) ∧
      (∀ c, inGrid s c → ((c ∈ defaultPath ∧ c ∈ targetPath) ↔ opensWithMirror fuel s c)) ∧
      (bruteForceCount fuel s = 0 → testSecurity fuel s = some "impossible") ∧
      (bruteForceCount fuel s ≠ 0 → ∃ r c : Int, testSecurity fuel s =
        some (toString (bruteForceCount fuel s : Int) ++ " " ++ toString (r + 1) ++ " " ++
          toString (c + 1))) := by
  obtain ⟨e1, f1, dp, h1⟩ := markRay_emitter_total s hr hc fuel hf
  obtain ⟨e2, f2, tp, h2⟩ := markRay_detector_total s hr hc fuel hf
  have hne : e1 ≠ (s.rows - 1, s.columns) := fun h =>
    hclosed ((isOpen_of_markRay s fuel e1 f1 dp h1).2 h)
  have hcount := common_length_eq_bruteForceCount s hwf hr hc fuel hf hclosed _ _ _ _ _ _ h1 h2
  have hres := testSecurity_closed_eq s fuel e1 f1 e2 f2 dp tp h1 h2 hne
  refine ⟨e1, f1, dp, e2, f2, tp, h1, h2, ?_, ?_, ?_⟩
  · exact fun c hcin => common_iff_opens s hwf hr hc fuel hf hclosed _ _ _ _ _ _ h1 h2 c hcin
  · intro h0
    rw [← hcount, List.length_eq_zero] at h0
    rw [hres, if_pos h0]
  · intro h0
    rw [← hcount] at h0 ⊢
    have hnil : dp.filter (fun p => decide (p ∈ tp)) ≠ [] := by
      intro h
      exact h0 (by rw [h]; rfl)
    rw [hres, if_neg hnil]
    exact ⟨(((dp.filter (fun p => decide (p ∈ tp))).head?).getD (-1, -1)).1,
      (((dp.filter (fun p => decide (p ∈ tp))).head?).getD (-1, -1)).2, rfl⟩

theorem solver_matches_brute_force_witness :
    sampleSafe.WF ∧ 1 ≤ sampleSafe.rows ∧ 1 ≤ sampleSafe.columns ∧
      (4 * sampleSafe.rows * sampleSafe.columns).toNat ≤ 36 ∧ ¬ isOpen 36 sampleSafe ∧
      ∃ e1 f1 defaultPath e2 f2 targetPath,
        markRay 36 sampleSafe (0, -1) (0, 1) = some (e1, f1, defaultPath) ∧
        markRay 36 sampleSafe (sampleSafe.rows - 1, sampleSafe.columns) (0, -1) =
          some (e2, f2, targetPath) ∧
        (∀ c, inGrid sampleSafe c →
          ((c ∈ defaultPath ∧ c ∈ targetPath) ↔ opensWithMirror 36 sampleSafe c)) ∧
        (bruteForceCount 36 sampleSafe = 0 → testSecurity 36 sampleSafe = some "impossible") ∧
        (bruteForceCount 36 sampleSafe ≠ 0 → ∃ r c : Int, testSecurity 36 sampleSafe =
          some (toString (bruteForceCount 36 sampleSafe : Int) ++ " " ++ toString (r + 1) ++ " " ++
            toString (c + 1))) :=
  ⟨by decide, by decide, by decide, by decide, by decide,
    solver_matches_brute_force sampleSafe (by decide) (by decide) (by decide) 36 (by decide)
      (by decide)⟩

/-- C2. When the emitter beam does not end on the detector, `testSecurity` returns
`"impossible"` if and only if the two traces have no common position; otherwise it
returns `"<n> <r+1> <c+1>"`, `n` the number of positions common to both traces and
`(r, c)` the lexicographically smallest of them. -/
theorem testSecurity_closed_result (s : Safe) (hr : 1 ≤ s.rows) (hc : 1 ≤ s.columns)
    (fuel : Nat) (hf : (4 * s.rows * s.columns).toNat ≤ fuel) (hclosed : ¬ isOpen fuel s) :
    ∃ e1 f1 defaultPath e2 f2 targetPath,
      markRay fuel s (0, -1) (0, 1) = some (e1, f1, defaultPath) ∧
      markRay fuel s (s.rows - 1, s.columns) (0, -1) = some (e2, f2, targetPath) ∧
      (testSecurity fuel s = some "impossible" ↔
        ∀ p, ¬ (p ∈ defaultPath ∧ p ∈ targetPath)) ∧
      ((∃ p, p ∈ defaultPath ∧ p ∈ targetPath) → ∃ r c : Int,
        (r, c) ∈ defaultPath ∧ (r, c) ∈ targetPath ∧
        (∀ q, q ∈ defaultPath → q ∈ targetPath → q = (r, c) ∨ r < q.1 ∨ (r = q.1 ∧ c < q.2)) ∧
        testSecurity fuel s =
          some (toString ((defaultPath.toFinset ∩ targetPath.toFinset).card : Int) ++ " " ++
            toString (r + 1) ++ " " ++ toString (c + 1))) := by
  obtain ⟨e1, f1, dp, h1⟩ := markRay_emitter_total s hr hc fuel hf
  obtain ⟨e2, f2, tp, h2⟩ := markRay_detector_total s hr hc fuel hf
  have hne : e1 ≠ (s.rows - 1, s.columns) := fun h =>
    hclosed ((isOpen_of_markRay s fuel e1 f1 dp h1).2 h)
  have hres := testSecurity_closed_eq s fuel e1 f1 e2 f2 dp tp h1 h2 hne
  have hsorted := markRay_path_sorted s fuel _ _ _ _ _ h1
  have hmem : ∀ p, p ∈ dp.filter (fun p => decide (p ∈ tp)) ↔ p ∈ dp ∧ p ∈ tp := by
    intro p
    simp [List.mem_filter]
  refine ⟨e1, f1, dp, e2, f2, tp, h1, h2, ?_, ?_⟩
  · constructor
    · intro h p hp
      by_cases hnil : dp.filter (fun p => decide (p ∈ tp)) = []
      · have := (hmem p).2 hp
        rw [hnil] at this
        exact List.not_mem_nil _ this
      · rw [hres, if_neg hnil] at h
        exact count_string_ne_impossible _ _ _ (Option.some.inj h)
    · intro h
      have hnil : dp.filter (fun p => decide (p ∈ tp)) = [] := by
        apply List.eq_nil_iff_forall_not_mem.2
        intro p hp
        exact h p ((hmem p).1 hp)
      rw [hres, if_pos hnil]
  · rintro ⟨p, hp⟩
    have hin := (hmem p).2 hp
    have hnil : dp.filter (fun p => decide (p ∈ tp)) ≠ [] := List.ne_nil_of_mem hin
    obtain ⟨x, hx⟩ : ∃ x, (dp.filter (fun p => decide (p ∈ tp))).head? = some x := by
      cases hF : dp.filter (fun p => decide (p ∈ tp)) with
      | nil => exact absurd hF hnil
      | cons a rest => exact ⟨a, rfl⟩
    have hmin := head_filter_min _ (hsorted.sublist (List.filter_sublist dp)) x hx
    refine ⟨x.1, x.2, ((hmem x).1 hmin.1).1, ((hmem x).1 hmin.1).2, ?_, ?_⟩
    · intro q hq1 hq2
      rcases hmin.2 q ((hmem q).2 ⟨hq1, hq2⟩) with h | h
      · exact Or.inl h
      · right
        simp only [pairLt] at h
        omega
    · rw [hres, if_neg hnil, hx, filter_mem_length dp tp (nodup_of_sorted dp hsorted)]
      rfl

theorem testSecurity_closed_result_witness :
    1 ≤ sampleSafe.rows ∧ 1 ≤ sampleSafe.columns ∧
      (4 * sampleSafe.rows * sampleSafe.columns).toNat ≤ 36 ∧ ¬ isOpen 36 sampleSafe ∧
      ∃ e1 f1 defaultPath e2 f2 targetPath,
        markRay 36 sampleSafe (0, -1) (0, 1) = some (e1, f1, defaultPath) ∧
        markRay 36 sampleSafe (sampleSafe.rows - 1, sampleSafe.columns) (0, -1) =
          some (e2, f2, targetPath) ∧
        (testSecurity 36 sampleSafe = some "impossible" ↔
          ∀ p, ¬ (p ∈ defaultPath ∧ p ∈ targetPath)) ∧
        ((∃ p, p ∈ defaultPath ∧ p ∈ targetPath) → ∃ r c : Int,
          (r, c) ∈ defaultPath ∧ (r, c) ∈ targetPath ∧
          (∀ q, q ∈ defaultPath → q ∈ targetPath →
            q = (r, c) ∨ r < q.1 ∨ (r = q.1 ∧ c < q.2)) ∧
          testSecurity 36 sampleSafe =
            some (toString ((defaultPath.toFinset ∩ targetPath.toFinset).card : Int) ++ " " ++
              toString (r + 1) ++ " " ++ toString (c + 1))) :=
  ⟨by decide, by decide, by decide, by decide,
    testSecurity_closed_result sampleSafe (by decide) (by decide) 36 (by decide) (by decide)⟩

/-- C3. On a grid with `rows, columns >= 1`, `testSecurity` returns, and it returns
`"0"` if and only if the beam traced from the emitter (start `(0, -1)`, direction
`(0, 1)`) leaves the grid at the position `(rows - 1, columns)`. -/
theorem testSecurity_zero_iff (s : Safe) (hr : 1 ≤ s.rows) (hc : 1 ≤ s.columns)
    (fuel : Nat) (hf : (4 * s.rows * s.columns).toNat ≤ fuel) :
    (∃ out, testSecurity fuel s = some out) ∧
      (testSecurity fuel s = some "0" ↔
        ∃ f path, markRay fuel s (0, -1) (0, 1) = some ((s.rows - 1, s.columns), f, path)) := by
  obtain ⟨e1, f1, dp, h1⟩ := markRay_emitter_total s hr hc fuel hf
  obtain ⟨e2, f2, tp, h2⟩ := markRay_detector_total s hr hc fuel hf
  by_cases he : e1 = (s.rows - 1, s.columns)
  · have hres := testSecurity_open_eq s fuel e1 f1 dp h1 he
    refine ⟨⟨_, hres⟩, fun _ => ?_, fun _ => hres⟩
    subst he
    exact ⟨f1, dp, h1⟩
  · have hres := testSecurity_closed_eq s fuel e1 f1 e2 f2 dp tp h1 h2 he
    refine ⟨⟨_, hres⟩, ?_, ?_⟩
    · intro h
      exfalso
      rw [hres] at h
      have h' := Option.some.inj h
      split_ifs at h' with hnil
      · revert h'
        decide
      · exact count_string_ne_zero _ _ _ h'
    · rintro ⟨f, path, h⟩
      rw [h1] at h
      simp only [Option.some.injEq, Prod.mk.injEq] at h
      exact absurd h.1 he

theorem testSecurity_zero_iff_witness :
    1 ≤ sampleSafe.rows ∧ 1 ≤ sampleSafe.columns ∧
      (4 * sampleSafe.rows * sampleSafe.columns).toNat ≤ 36 ∧
      (∃ out, testSecurity 36 sampleSafe = some out) ∧
      (testSecurity 36 sampleSafe = some "0" ↔
        ∃ f path, markRay 36 sampleSafe (0, -1) (0, 1) =
          some ((sampleSafe.rows - 1, sampleSafe.columns), f, path)) :=
  ⟨by decide, by decide, by decide,
    testSecurity_zero_iff sampleSafe (by decide) (by decide) 36 (by decide)⟩

/-- C4. Whenever `markRay` returns, the returned list is strictly increasing in the
lexicographic (row, column) order: every element is smaller than every later one, so
the list is sorted and no two of its elements are equal. -/
theorem markRay_strictly_increasing (s : Safe) (fuel : Nat) (start dir e f : Position)
    (path : List Position) (h : markRay fuel s start dir = some (e, f, path)) :
    path.Pairwise (fun a b => a.1 < b.1 ∨ (a.1 = b.1 ∧ a.2 < b.2)) ∧ path.Nodup := by
  have hs := markRay_path_sorted s fuel start dir e f path h
  refine ⟨List.Pairwise.imp ?_ hs, nodup_of_sorted path hs⟩
  intro a b hab
  simp only [pairLt] at hab
  omega

theorem markRay_strictly_increasing_witness :
    markRay 36 sampleSafe (0, -1) (0, 1) = some ((3, 1), (1, 0), [(0, 0), (1, 1), (2, 1)]) ∧
      ([(0, 0), (1, 1), (2, 1)] : List Position).Pairwise
        (fun a b => a.1 < b.1 ∨ (a.1 = b.1 ∧ a.2 < b.2)) ∧
      ([(0, 0), (1, 1), (2, 1)] : List Position).Nodup :=
  ⟨by decide, markRay_strictly_increasing sampleSafe 36 (0, -1) (0, 1) (3, 1) (1, 0)
    [(0, 0), (1, 1), (2, 1)] (by decide)⟩

/-- C5. Whenever `markRay` returns, the returned list holds exactly the `EMPTY` cells
the beam stepped on inside the grid: every element is in range, was stepped on and is
`EMPTY` (so it is no mirror cell), and every `EMPTY` cell the beam stepped on before
it left the grid is an element. -/
theorem markRay_path_exact (s : Safe) (fuel : Nat) (start dir e f : Position)
    (path : List Position) (h : markRay fuel s start dir = some (e, f, path)) :
    (∀ p, p ∈ path →
      (0 ≤ p.1 ∧ p.1 < s.rows ∧ 0 ≤ p.2 ∧ p.2 < s.columns) ∧ Visits s (entry start dir) p ∧
        cellAt s p = Mirror.EMPTY ∧ cellAt s p ≠ Mirror.SLASH ∧ cellAt s p ≠ Mirror.BACKSLASH) ∧
      (∀ p, Visits s (entry start dir) p → cellAt s p = Mirror.EMPTY → p ∈ path) := by
  constructor
  · intro p hp
    have hv := (mem_markRay_path s fuel start dir e f path h p).1 hp
    have hin := visits_inGrid s _ p hv.1
    simp only [inGrid] at hin
    refine ⟨⟨hin.2.2.1, hin.2.2.2, hin.1, hin.2.1⟩, hv.1, hv.2, ?_, ?_⟩ <;> simp [hv.2]
  · intro p hv hc
    exact (mem_markRay_path s fuel start dir e f path h p).2 ⟨hv, hc⟩

theorem markRay_path_exact_witness :
    markRay 36 sampleSafe (0, -1) (0, 1) = some ((3, 1), (1, 0), [(0, 0), (1, 1), (2, 1)]) ∧
      (∀ p, p ∈ ([(0, 0), (1, 1), (2, 1)] : List Position) →
        (0 ≤ p.1 ∧ p.1 < sampleSafe.rows ∧ 0 ≤ p.2 ∧ p.2 < sampleSafe.columns) ∧
          Visits sampleSafe (entry (0, -1) (0, 1)) p ∧
          cellAt sampleSafe p = Mirror.EMPTY ∧ cellAt sampleSafe p ≠ Mirror.SLASH ∧
          cellAt sampleSafe p ≠ Mirror.BACKSLASH) ∧
      (∀ p, Visits sampleSafe (entry (0, -1) (0, 1)) p → cellAt sampleSafe p = Mirror.EMPTY →
        p ∈ ([(0, 0), (1, 1), (2, 1)] : List Position)) :=
  ⟨by decide, markRay_path_exact sampleSafe 36 (0, -1) (0, 1) (3, 1) (1, 0)
    [(0, 0), (1, 1), (2, 1)] (by decide)⟩

/-- C6. Reflection table of `markRay`.  At a `SLASH` cell the direction `(dr, dc)`
becomes `(-dc, -dr)`: right to up, up to right, left to down, down to left.  At a
`BACKSLASH` cell it becomes `(dc, dr)`: right to down, down to right, left to up, up
to left.  At an `EMPTY` cell it is unchanged.  One iteration of the loop on a cell of
the grid continues with exactly this direction and with `start` moved one step along it. -/
theorem reflect_table :
    (∀ d : Position, reflect Mirror.SLASH d = (-d.2, -d.1)) ∧
      reflect Mirror.SLASH (0, 1) = (-1, 0) ∧ reflect Mirror.SLASH (-1, 0) = (0, 1) ∧
      reflect Mirror.SLASH (0, -1) = (1, 0) ∧ reflect Mirror.SLASH (1, 0) = (0, -1) ∧
      (∀ d : Position, reflect Mirror.BACKSLASH d = (d.2, d.1)) ∧
      reflect Mirror.BACKSLASH (0, 1) = (1, 0) ∧ reflect Mirror.BACKSLASH (1, 0) = (0, 1) ∧
      reflect Mirror.BACKSLASH (0, -1) = (-1, 0) ∧ reflect Mirror.BACKSLASH (-1, 0) = (0, -1) ∧
      (∀ d : Position, reflect Mirror.EMPTY d = d) ∧
      (∀ (s : Safe) (fuel : Nat) (start direction : Position) (path : List Position),
        inGrid s start →
        markRayLoop s (fuel + 1) start direction path =
          markRayLoop s fuel
            (start.1 + (reflect (cellAt s start) direction).1,
              start.2 + (reflect (cellAt s start) direction).2)
            (reflect (cellAt s start) direction)
            (path ++ (if cellAt s start = Mirror.EMPTY then [start] else []))) := by
  refine ⟨fun _ => rfl, by decide, by decide, by decide, by decide, fun _ => rfl, by decide,
    by decide, by decide, by decide, fun _ => rfl, ?_⟩
  intro s fuel start direction path hin
  exact markRayLoop_succ s fuel start direction path hin

/-- C7. Termination of the tracer.  On a grid with `rows, columns >= 1`, from every
start one step outside the grid with an axis-aligned unit direction pointing into it,
the loop of `markRay` runs some `k <= 4 * rows * columns` iterations and leaves the
grid, so `markRay` returns on every budget of at least `4 * rows * columns`
iterations; this holds for the emitter and detector entries of `testSecurity`. -/
theorem markRay_terminates (s : Safe) (hr : 1 ≤ s.rows) (hc : 1 ≤ s.columns) :
    (∀ start dir : Position, ¬ inGrid s start → inGrid s (start.1 + dir.1, start.2 + dir.2) →
      axisUnit dir →
      (∃ k, k ≤ (4 * s.rows * s.columns).toNat ∧ Exits s (entry start dir) k) ∧
      ∀ fuel, (4 * s.rows * s.columns).toNat ≤ fuel →
        ∃ e f path, markRay fuel s start dir = some (e, f, path) ∧ ¬ inGrid s e) ∧
      (∀ fuel, (4 * s.rows * s.columns).toNat ≤ fuel →
        (∃ e f path, markRay fuel s (0, -1) (0, 1) = some (e, f, path)) ∧
        ∃ e f path, markRay fuel s (s.rows - 1, s.columns) (0, -1) = some (e, f, path)) := by
  constructor
  · intro start dir hout _ hu
    constructor
    · obtain ⟨k, hk, hE⟩ := exits_exists s start dir hout hu
      exact ⟨k, by rw [← fuel_bound _ _ hr hc]; exact hk, hE⟩
    · intro fuel hf
      rw [← fuel_bound _ _ hr hc] at hf
      obtain ⟨k, _, hE, hm⟩ := markRay_total s start dir hout hu fuel hf
      exact ⟨_, _, _, hm, hE.2⟩
  · intro fuel hf
    exact ⟨markRay_emitter_total s hr hc fuel hf, markRay_detector_total s hr hc fuel hf⟩

theorem markRay_terminates_witness :
    1 ≤ sampleSafe.rows ∧ 1 ≤ sampleSafe.columns ∧
      (∃ e f path, markRay 36 sampleSafe (0, -1) (0, 1) = some (e, f, path)) ∧
      ∃ e f path, markRay 36 sampleSafe (sampleSafe.rows - 1, sampleSafe.columns) (0, -1) =
        some (e, f, path) :=
  ⟨by decide, by decide,
    (markRay_terminates sampleSafe (by decide) (by decide)).2 36 (by decide)⟩

/-- C8, counterexample.  The 1 x 1 safe without mirrors is open; its cell `(0, 0)` is
on the emitter trace and on the detector trace, yet neither a `/` nor a `\` put on it
makes the emitter beam end on the detector `(0, 1)`. -/
theorem reversibility_counterexample :
    (Safe.build 1 1 [] []).WF ∧
      markRay 4 (Safe.build 1 1 [] []) (0, -1) (0, 1) = some ((0, 1), (0, 1), [(0, 0)]) ∧
      markRay 4 (Safe.build 1 1 [] []) (0, 1) (0, -1) = some ((0, -1), (0, -1), [(0, 0)]) ∧
      ¬ (((0, 0) : Position) ∈ ([(0, 0)] : List Position) ↔
        (isOpen 4 (placeMirror (Safe.build 1 1 [] []) (0, 0) Mirror.SLASH) ∨
          isOpen 4 (placeMirror (Safe.build 1 1 [] []) (0, 0) Mirror.BACKSLASH))) := by
  decide

/-- C8, amended.  On a grid with `rows, columns >= 1` whose emitter beam does not end
on the detector, for every cell `C` of the emitter trace: the detector trace contains
`C` if and only if a `/` or a `\` put on `C` makes the emitter beam end on the detector
position `(rows - 1, columns)`. -/
theorem reversibility_closed (s : Safe) (hwf : s.WF) (hr : 1 ≤ s.rows) (hc : 1 ≤ s.columns)
    (fuel : Nat) (hf : (4 * s.rows * s.columns).toNat ≤ fuel) (hclosed : ¬ isOpen fuel s) :
    ∃ e1 f1 defaultPath e2 f2 targetPath,
      markRay fuel s (0, -1) (0, 1) = some (e1, f1, defaultPath) ∧
      markRay fuel s (s.rows - 1, s.columns) (0, -1) = some (e2, f2, targetPath) ∧
      ∀ c, c ∈ defaultPath →
        (c ∈ targetPath ↔
          (isOpen fuel (placeMirror s c Mirror.SLASH) ∨
            isOpen fuel (placeMirror s c Mirror.BACKSLASH))) := by
  obtain ⟨e1, f1, dp, h1⟩ := markRay_emitter_total s hr hc fuel hf
  obtain ⟨e2, f2, tp, h2⟩ := markRay_detector_total s hr hc fuel hf
  refine ⟨e1, f1, dp, e2, f2, tp, h1, h2, ?_⟩
  intro c hcd
  have hv := (mem_markRay_path s fuel _ _ _ _ _ h1 c).1 hcd
  have hin := visits_inGrid s _ c hv.1
  have hiff := common_iff_opens s hwf hr hc fuel hf hclosed _ _ _ _ _ _ h1 h2 c hin
  constructor
  · intro hct
    exact (hiff.1 ⟨hcd, hct⟩).2
  · intro hopen
    exact (hiff.2 ⟨hv.2, hopen⟩).2

theorem reversibility_closed_witness :
    sampleSafe.WF ∧ 1 ≤ sampleSafe.rows ∧ 1 ≤ sampleSafe.columns ∧
      (4 * sampleSafe.rows * sampleSafe.columns).toNat ≤ 36 ∧ ¬ isOpen 36 sampleSafe ∧
      ∃ e1 f1 defaultPath e2 f2 targetPath,
        markRay 36 sampleSafe (0, -1) (0, 1) = some (e1, f1, defaultPath) ∧
        markRay 36 sampleSafe (sampleSafe.rows - 1, sampleSafe.columns) (0, -1) =
          some (e2, f2, targetPath) ∧
        ∀ c, c ∈ defaultPath →
          (c ∈ targetPath ↔
            (isOpen 36 (placeMirror sampleSafe c Mirror.SLASH) ∨
              isOpen 36 (placeMirror sampleSafe c Mirror.BACKSLASH))) :=
  ⟨by decide, by decide, by decide, by decide, by decide,
    reversibility_closed sampleSafe (by decide) (by decide) (by decide) 36 (by decide)
      (by decide)⟩

/-- C9, counterexample.  The 2 x 1 safe without mirrors: `testSecurity` returns
`"impossible"`, not `"0"`. -/
theorem no_mirrors_zero_counterexample :
    noMirrors (Safe.build 2 1 [] []) ∧ (Safe.build 2 1 [] []).WF ∧
      (1 : Int) ≤ (Safe.build 2 1 [] []).rows ∧ (1 : Int) ≤ (Safe.build 2 1 [] []).columns ∧
      testSecurity 8 (Safe.build 2 1 [] []) = some "impossible" ∧
      testSecurity 8 (Safe.build 2 1 [] []) ≠ some "0" := by
  decide

/-- C9, amended.  If the grid contains zero mirrors and has a single row, `testSecurity`
returns `"0"` for any `columns >= 1`. -/
theorem no_mirrors_single_row_zero (s : Safe) (hno : noMirrors s) (hrow : s.rows = 1)
    (hc : 1 ≤ s.columns) (fuel : Nat) (hf : (4 * s.rows * s.columns).toNat ≤ fuel) :
    testSecurity fuel s = some "0" :=
  testSecurity_noMirrors_row s hno (by omega) hc fuel hf hrow

theorem no_mirrors_single_row_zero_witness :
    noMirrors (Safe.build 1 2 [] []) ∧ (Safe.build 1 2 [] []).rows = 1 ∧
      1 ≤ (Safe.build 1 2 [] []).columns ∧
      (4 * (Safe.build 1 2 [] []).rows * (Safe.build 1 2 [] []).columns).toNat ≤ 8 ∧
      testSecurity 8 (Safe.build 1 2 [] []) = some "0" :=
  ⟨by decide, by decide, by decide, by decide,
    no_mirrors_single_row_zero (Safe.build 1 2 [] []) (by decide) (by decide) (by decide) 8
      (by decide)⟩

/-- C10. For a grid with zero mirrors, `rows >= 1` and `columns >= 1`, the emitter beam
crosses row 0 and leaves the grid at `(0, columns)`; if `rows = 1` that is the detector
position and `testSecurity` returns `"0"`, if `rows >= 2` it is not and `testSecurity`
returns `"impossible"`. -/
theorem no_mirrors_result (s : Safe) (hno : noMirrors s) (hr : 1 ≤ s.rows)
    (hc : 1 ≤ s.columns) (fuel : Nat) (hf : (4 * s.rows * s.columns).toNat ≤ fuel) :
    emitterExit fuel s = some (0, s.columns) ∧
      (s.rows = 1 → isOpen fuel s ∧ testSecurity fuel s = some "0") ∧
      (2 ≤ s.rows → ¬ isOpen fuel s ∧ testSecurity fuel s = some "impossible") := by
  obtain ⟨path, hm⟩ := markRay_emitter_noMirrors s hno hr hc fuel hf
  refine ⟨by simp [emitterExit, hm], ?_, ?_⟩
  · intro h1
    refine ⟨?_, testSecurity_noMirrors_row s hno hr hc fuel hf h1⟩
    rw [isOpen_of_markRay s fuel _ _ _ hm, h1]
    rfl
  · intro h2
    refine ⟨?_, testSecurity_noMirrors_rows s hno h2 hc fuel hf⟩
    rw [isOpen_of_markRay s fuel _ _ _ hm]
    simp only [Prod.mk.injEq, and_true]
    omega

theorem no_mirrors_result_witness :
    noMirrors (Safe.build 1 3 [] []) ∧ 1 ≤ (Safe.build 1 3 [] []).rows ∧
      1 ≤ (Safe.build 1 3 [] []).columns ∧
      (4 * (Safe.build 1 3 [] []).rows * (Safe.build 1 3 [] []).columns).toNat ≤ 12 ∧
      emitterExit 12 (Safe.build 1 3 [] []) = some (0, 3) ∧
      isOpen 12 (Safe.build 1 3 [] []) ∧ testSecurity 12 (Safe.build 1 3 [] []) = some "0" :=
  ⟨by decide, by decide, by decide, by decide,
    (no_mirrors_result (Safe.build 1 3 [] []) (by decide) (by decide) (by decide) 12
      (by decide)).1,
    (no_mirrors_result (Safe.build 1 3 [] []) (by decide) (by decide) (by decide) 12
      (by decide)).2.1 (by decide)⟩

/-- C11, counterexample.  The 2 x 1 safe with a `\` on both cells: every cell holds a
mirror, the emitter beam is turned down and then right and ends on the detector, and
`testSecurity` returns `"0"`, not `"impossible"`. -/
theorem all_mirrors_counterexample :
    (Safe.build 2 1 [] [(0, 0), (1, 0)]).WF ∧ allMirrors (Safe.build 2 1 [] [(0, 0), (1, 0)]) ∧
      (1 : Int) ≤ (Safe.build 2 1 [] [(0, 0), (1, 0)]).rows ∧
      (1 : Int) ≤ (Safe.build 2 1 [] [(0, 0), (1, 0)]).columns ∧
      testSecurity 8 (Safe.build 2 1 [] [(0, 0), (1, 0)]) = some "0" ∧
      testSecurity 8 (Safe.build 2 1 [] [(0, 0), (1, 0)]) ≠ some "impossible" := by
  decide

/-- C11, amended.  On a grid with `rows, columns >= 1` in which every cell holds a
mirror, both traces are empty and `testSecurity` returns `"impossible"` unless the
emitter beam already ends on the detector, in which case it returns `"0"`. -/
theorem all_mirrors_result (s : Safe) (hwf : s.WF) (hall : allMirrors s) (hr : 1 ≤ s.rows)
    (hc : 1 ≤ s.columns) (fuel : Nat) (hf : (4 * s.rows * s.columns).toNat ≤ fuel) :
    (∃ e1 f1 e2 f2, markRay fuel s (0, -1) (0, 1) = some (e1, f1, []) ∧
      markRay fuel s (s.rows - 1, s.columns) (0, -1) = some (e2, f2, [])) ∧
      (isOpen fuel s → testSecurity fuel s = some "0") ∧
      (¬ isOpen fuel s → testSecurity fuel s = some "impossible") := by
  obtain ⟨e1, f1, dp, h1⟩ := markRay_emitter_total s hr hc fuel hf
  obtain ⟨e2, f2, tp, h2⟩ := markRay_detector_total s hr hc fuel hf
  have hd := markRay_path_nil_of_allMirrors s hwf hall fuel _ _ _ _ _ h1
  have ht := markRay_path_nil_of_allMirrors s hwf hall fuel _ _ _ _ _ h2
  subst hd
  subst ht
  refine ⟨⟨e1, f1, e2, f2, h1, h2⟩, ?_, ?_⟩
  · intro hopen
    exact testSecurity_open_eq s fuel e1 f1 [] h1 ((isOpen_of_markRay s fuel e1 f1 [] h1).1 hopen)
  · intro hclosed
    have hne : e1 ≠ (s.rows - 1, s.columns) := fun h =>
      hclosed ((isOpen_of_markRay s fuel e1 f1 [] h1).2 h)
    rw [testSecurity_closed_eq s fuel e1 f1 e2 f2 [] [] h1 h2 hne]
    rfl

theorem all_mirrors_result_witness :
    (Safe.build 1 1 [(0, 0)] []).WF ∧ allMirrors (Safe.build 1 1 [(0, 0)] []) ∧
      1 ≤ (Safe.build 1 1 [(0, 0)] []).rows ∧ 1 ≤ (Safe.build 1 1 [(0, 0)] []).columns ∧
      (4 * (Safe.build 1 1 [(0, 0)] []).rows * (Safe.build 1 1 [(0, 0)] []).columns).toNat ≤ 4 ∧
      ¬ isOpen 4 (Safe.build 1 1 [(0, 0)] []) ∧
      testSecurity 4 (Safe.build 1 1 [(0, 0)] []) = some "impossible" :=
  ⟨by decide, by decide, by decide, by decide, by decide, by decide,
    (all_mirrors_result (Safe.build 1 1 [(0, 0)] []) (by decide) (by decide) (by decide)
      (by decide) 4 (by decide)).2.2 (by decide)⟩

/-- C12, counterexample.  The 2 x 2 safe whose only mirror is a `/` at `(0, 1)`: the
emitter trace is `[(0, 0)]`, the detector trace is `[(1, 0), (1, 1)]`, they share no
cell and `testSecurity` returns `"impossible"`; no result `"1 <row> <column>"`. -/
theorem single_solution_counterexample :
    Safe.build 2 2 [(0, 1)] [] =
        { grid := [[Mirror.EMPTY, Mirror.SLASH], [Mirror.EMPTY, Mirror.EMPTY]],
          rows := 2, columns := 2 } ∧
      markRay 16 (Safe.build 2 2 [(0, 1)] []) (0, -1) (0, 1) = some ((-1, 1), (-1, 0), [(0, 0)]) ∧
      markRay 16 (Safe.build 2 2 [(0, 1)] []) (1, 2) (0, -1) =
        some ((1, -1), (0, -1), [(1, 0), (1, 1)]) ∧
      testSecurity 16 (Safe.build 2 2 [(0, 1)] []) = some "impossible" := by
  decide

/-- C12, amended.  For the 2 x 2 grid whose only mirror is a `/` at `(0, 1)`,
`testSecurity` returns `"impossible"`.  For the 2 x 2 grid whose only mirror is a `\`
at `(0, 1)`, the one empty cell common to the emitter and detector traces is `(1, 1)`
and `testSecurity` returns `"1 2 2"`: count 1 and that cell's 1-indexed coordinates. -/
theorem single_solution_case :
    testSecurity 16 (Safe.build 2 2 [(0, 1)] []) = some "impossible" ∧
      markRay 16 (Safe.build 2 2 [] [(0, 1)]) (0, -1) (0, 1) =
        some ((2, 1), (1, 0), [(0, 0), (1, 1)]) ∧
      markRay 16 (Safe.build 2 2 [] [(0, 1)]) (1, 2) (0, -1) =
        some ((1, -1), (0, -1), [(1, 0), (1, 1)]) ∧
      testSecurity 16 (Safe.build 2 2 [] [(0, 1)]) = some "1 2 2" := by
  decide

/-- C13, counterexample.  Invalid input for which the constructor does not fail and
`testSecurity` returns a verdict: `"impossible"` for 0 rows (also with a negative
number of columns), `"0"` for 1 row of 0 columns, and `"impossible"` for a 1 x 1 grid
whose cell is in both mirror lists (it is built as `\`). -/
theorem invalid_input_counterexample :
    Safe.construct 0 1 [] [] = some { grid := [], rows := 0, columns := 1 } ∧
      testSecurity 0 { grid := [], rows := 0, columns := 1 } = some "impossible" ∧
      Safe.construct 0 (-1) [] [] = some { grid := [], rows := 0, columns := -1 } ∧
      testSecurity 0 { grid := [], rows := 0, columns := -1 } = some "impossible" ∧
      Safe.construct 1 0 [] [] = some { grid := [[]], rows := 1, columns := 0 } ∧
      testSecurity 0 { grid := [[]], rows := 1, columns := 0 } = some "0" ∧
      Safe.construct 1 1 [(0, 0)] [(0, 0)] =
        some { grid := [[Mirror.BACKSLASH]], rows := 1, columns := 1 } ∧
      testSecurity 4 { grid := [[Mirror.BACKSLASH]], rows := 1, columns := 1 } =
        some "impossible" := by
  decide

/-- C13, amended.  For `rows < 0`, and for `columns < 0` with `rows >= 1`, construction
is rejected (the vector allocation throws) and `testSecurity` returns nothing.  For the
other invalid inputs the code runs on, construction succeeds and `testSecurity`
returns a verdict: with no mirrors and `rows = 0` (any `columns`) or `columns = 0`
(with `rows >= 1`) it returns `"impossible"`, except `"0"` for one row of zero
columns; with `rows, columns >= 1` and in-range positions, a position present in both
lists is built as `\` (the second list is written last) and `testSecurity` returns
`"0"`, `"impossible"` or a count string. -/
theorem invalid_input_verdicts (r c : Int) (fuel : Nat) :
    (∀ slashes backslashes : List Position, (r < 0 ∨ (1 ≤ r ∧ c < 0)) →
      Safe.construct r c slashes backslashes = none ∧
      (Safe.construct r c slashes backslashes).bind (testSecurity fuel) = none) ∧
    ((r = 0 ∨ (1 ≤ r ∧ c = 0)) →
      Safe.construct r c [] [] = some (Safe.build r c [] []) ∧
      (Safe.construct r c [] []).bind (testSecurity fuel) =
        some (if r = 1 then "0" else "impossible")) ∧
    (∀ slashes backslashes : List Position, 1 ≤ r → 1 ≤ c →
      (∀ p ∈ slashes, 0 ≤ p.1 ∧ p.1 < r ∧ 0 ≤ p.2 ∧ p.2 < c) →
      (∀ p ∈ backslashes, 0 ≤ p.1 ∧ p.1 < r ∧ 0 ≤ p.2 ∧ p.2 < c) →
      (4 * r * c).toNat ≤ fuel →
      Safe.construct r c slashes backslashes = some (Safe.build r c slashes backslashes) ∧
      (∀ p, p ∈ slashes → p ∈ backslashes →
        cellAt (Safe.build r c slashes backslashes) p = Mirror.BACKSLASH) ∧
      (testSecurity fuel (Safe.build r c slashes backslashes) = some "0" ∨
        testSecurity fuel (Safe.build r c slashes backslashes) = some "impossible" ∨
        ∃ (n : Nat) (i j : Int), testSecurity fuel (Safe.build r c slashes backslashes) =
          some (toString (n : Int) ++ " " ++ toString (i + 1) ++ " " ++ toString (j + 1)))) := by
  refine ⟨?_, ?_, ?_⟩
  · intro slashes backslashes h
    have hnone := construct_eq_none r c slashes backslashes h
    exact ⟨hnone, by rw [hnone]; rfl⟩
  · intro h0
    have hsome := construct_eq_build r c [] [] (by omega)
    refine ⟨hsome, ?_⟩
    rw [hsome, Option.some_bind,
      testSecurity_no_cells (Safe.build r c [] [])
        (by rw [build_rows, build_columns]; omega) fuel,
      build_rows, build_columns]
    by_cases h1 : r = 1
    · have hc0 : c = 0 := by omega
      rw [if_pos ⟨h1, hc0⟩, if_pos h1]
    · rw [if_neg (fun h => h1 h.1), if_neg h1]
  · intro slashes backslashes hr1 hc1 hs hb hf
    obtain ⟨_, b2, b3, b4⟩ := build_spec r c slashes backslashes hs hb
    refine ⟨construct_eq_build r c slashes backslashes (by omega), ?_, ?_⟩
    · intro p _ hpb
      rw [b4 p (hb p hpb), if_pos hpb]
    · apply testSecurity_total _ (by rw [b2]; exact hr1) (by rw [b3]; exact hc1) fuel
      rw [b2, b3]
      exact hf

theorem invalid_input_verdicts_witness :
    Safe.construct (-1) 1 [] [] = none ∧
      (Safe.construct 0 1 [] []).bind (testSecurity 4) = some "impossible" ∧
      Safe.construct 1 1 [(0, 0)] [(0, 0)] = some (Safe.build 1 1 [(0, 0)] [(0, 0)]) ∧
      cellAt (Safe.build 1 1 [(0, 0)] [(0, 0)]) (0, 0) = Mirror.BACKSLASH :=
  ⟨((invalid_input_verdicts (-1) 1 4).1 [] [] (by decide)).1,
    ((invalid_input_verdicts 0 1 4).2.1 (by decide)).2,
    ((invalid_input_verdicts 1 1 4).2.2 [(0, 0)] [(0, 0)] (by decide) (by decide) (by decide)
      (by decide) (by decide)).1,
    ((invalid_input_verdicts 1 1 4).2.2 [(0, 0)] [(0, 0)] (by decide) (by decide) (by decide)
      (by decide) (by decide)).2.1 (0, 0) (by decide) (by decide)⟩

/-- C17. Construction.  For `rows, columns >= 1` and two lists of in-range positions
with no position in both, the constructor succeeds and builds a grid of `rows` rows of
`columns` cells in which a cell is `SLASH` iff its position is in the first list,
`BACKSLASH` iff it is in the second list, and `EMPTY` otherwise. -/
theorem build_grid (r c : Int) (hr : 1 ≤ r) (hc : 1 ≤ c) (slashes backslashes : List Position)
    (hs : ∀ p ∈ slashes, 0 ≤ p.1 ∧ p.1 < r ∧ 0 ≤ p.2 ∧ p.2 < c)
    (hb : ∀ p ∈ backslashes, 0 ≤ p.1 ∧ p.1 < r ∧ 0 ≤ p.2 ∧ p.2 < c)
    (hdisj : ∀ p ∈ slashes, p ∉ backslashes) :
    Safe.construct r c slashes backslashes = some (Safe.build r c slashes backslashes) ∧
      (Safe.build r c slashes backslashes).rows = r ∧
      (Safe.build r c slashes backslashes).columns = c ∧
      (Safe.build r c slashes backslashes).grid.length = r.toNat ∧
      (∀ row ∈ (Safe.build r c slashes backslashes).grid, row.length = c.toNat) ∧
      ∀ q : Position, 0 ≤ q.1 ∧ q.1 < r ∧ 0 ≤ q.2 ∧ q.2 < c →
        (cellAt (Safe.build r c slashes backslashes) q = Mirror.SLASH ↔ q ∈ slashes) ∧
        (cellAt (Safe.build r c slashes backslashes) q = Mirror.BACKSLASH ↔ q ∈ backslashes) ∧
        (cellAt (Safe.build r c slashes backslashes) q = Mirror.EMPTY ↔
          q ∉ slashes ∧ q ∉ backslashes) := by
  obtain ⟨b1, b2, b3, b4⟩ := build_spec r c slashes backslashes hs hb
  have hlen := b1.1
  have hrows := b1.2
  rw [b2] at hlen
  rw [b3] at hrows
  refine ⟨construct_eq_build r c slashes backslashes (by omega), b2, b3, hlen, hrows, ?_⟩
  intro q hq
  rw [b4 q hq]
  by_cases hqb : q ∈ backslashes
  · have hqs : q ∉ slashes := fun h => hdisj q h hqb
    simp [hqb, hqs]
  · by_cases hqs : q ∈ slashes
    · simp [hqb, hqs]
    · simp [hqb, hqs]

theorem build_grid_witness :
    (1 : Int) ≤ 3 ∧
      (∀ p ∈ ([(0, 1)] : List Position), 0 ≤ p.1 ∧ p.1 < 3 ∧ 0 ≤ p.2 ∧ p.2 < 3) ∧
      (∀ p ∈ ([(2, 0)] : List Position), 0 ≤ p.1 ∧ p.1 < 3 ∧ 0 ≤ p.2 ∧ p.2 < 3) ∧
      (∀ p ∈ ([(0, 1)] : List Position), p ∉ ([(2, 0)] : List Position)) ∧
      Safe.construct 3 3 [(0, 1)] [(2, 0)] = some (Safe.build 3 3 [(0, 1)] [(2, 0)]) ∧
      (Safe.build 3 3 [(0, 1)] [(2, 0)]).grid.length = 3 ∧
      cellAt (Safe.build 3 3 [(0, 1)] [(2, 0)]) (0, 1) = Mirror.SLASH ∧
      cellAt (Safe.build 3 3 [(0, 1)] [(2, 0)]) (2, 0) = Mirror.BACKSLASH ∧
      cellAt (Safe.build 3 3 [(0, 1)] [(2, 0)]) (1, 1) = Mirror.EMPTY :=
  have h := build_grid 3 3 (by decide) (by decide) [(0, 1)] [(2, 0)] (by decide) (by decide)
    (by decide)
  ⟨by decide, by decide, by decide, by decide, h.1, h.2.2.2.1,
    ((h.2.2.2.2.2 (0, 1) (by decide)).1).2 (by decide),
    ((h.2.2.2.2.2 (2, 0) (by decide)).2.1).2 (by decide),
    ((h.2.2.2.2.2 (1, 1) (by decide)).2.2).2 (by decide)⟩

/-- C14. Exit state of `markRay`.  When `start + direction` is inside the grid and
`direction` is an axis-aligned unit vector, the updated `start` that `markRay` returns
lies outside the grid and one step back against the final direction lies inside it,
so exactly one coordinate is out of range, by one; and when the exit position is
`(rows - 1, columns)` the final direction is `(0, 1)`. -/
theorem markRay_exit_state (s : Safe) (fuel : Nat) (start dir e f : Position)
    (path : List Position) (hin : inGrid s (start.1 + dir.1, start.2 + dir.2))
    (hu : axisUnit dir) (h : markRay fuel s start dir = some (e, f, path)) :
    ¬ inGrid s e ∧ inGrid s (e.1 - f.1, e.2 - f.2) ∧ axisUnit f ∧
      (((e.1 = -1 ∨ e.1 = s.rows) ∧ 0 ≤ e.2 ∧ e.2 < s.columns) ∨
        ((e.2 = -1 ∨ e.2 = s.columns) ∧ 0 ≤ e.1 ∧ e.1 < s.rows)) ∧
      (e = (s.rows - 1, s.columns) → f = (0, 1)) := by
  obtain ⟨k, _, hE, hr⟩ := exits_of_markRay s fuel start dir _ h
  simp only [Prod.mk.injEq] at hr
  have hk := exits_pos_of_entry_inGrid s (entry start dir) k hE hin
  obtain ⟨h1, h2, h3⟩ := exit_state s (entry start dir) hu k hE hk
  rw [← hr.1] at h1
  rw [← hr.2.1] at h3
  have h2' : inGrid s (e.1 - f.1, e.2 - f.2) := by
    have : (rev ((step s)^[k] (entry start dir))).1 = (e.1 - f.1, e.2 - f.2) := by
      rw [hr.1, hr.2.1]
      rfl
    rw [← this]
    exact h2
  refine ⟨h1, h2', h3, ?_, ?_⟩
  · obtain ⟨e1, e2⟩ := e
    obtain ⟨a, b⟩ := f
    simp only [inGrid, axisUnit] at h1 h2' h3 ⊢
    omega
  · intro he
    obtain ⟨e1, e2⟩ := e
    obtain ⟨a, b⟩ := f
    simp only [inGrid, axisUnit, Prod.mk.injEq] at h1 h2' h3 he ⊢
    omega

theorem markRay_exit_state_witness :
    inGrid sampleSafe ((0 : Int) + 0, (-1 : Int) + 1) ∧ axisUnit (0, 1) ∧
      markRay 36 sampleSafe (0, -1) (0, 1) = some ((3, 1), (1, 0), [(0, 0), (1, 1), (2, 1)]) ∧
      ¬ inGrid sampleSafe (3, 1) ∧ inGrid sampleSafe ((3 : Int) - 1, (1 : Int) - 0) ∧
      axisUnit (1, 0) :=
  have h := markRay_exit_state sampleSafe 36 (0, -1) (0, 1) (3, 1) (1, 0)
    [(0, 0), (1, 1), (2, 1)] (by decide) (by decide) (by decide)
  ⟨by decide, by decide, by decide, h.1, h.2.1, h.2.2.1⟩

/-- C15. Direction invariant.  If the direction passed to `markRay` has components in
`{-1, 0, 1}` with exactly one of them non-zero, then so has the direction after the
`switch` on any cell state, after every number of loop iterations on any grid, and
the final direction that `markRay` returns. -/
theorem direction_invariant (dir : Position) (hu : axisUnit dir) :
    (∀ m : Mirror, axisUnit (reflect m dir)) ∧
      (∀ (s : Safe) (start : Position) (k : Nat),
        axisUnit ((step s)^[k] (entry start dir)).2 ∧
        ((step s)^[k] (entry start dir)).2 ≠ (0, 0)) ∧
      (∀ (s : Safe) (fuel : Nat) (start e f : Position) (path : List Position),
        markRay fuel s start dir = some (e, f, path) → axisUnit f) := by
  refine ⟨fun m => axisUnit_reflect m dir hu, ?_, ?_⟩
  · intro s start k
    have h := iterate_axisUnit s (entry start dir) hu k
    refine ⟨h, ?_⟩
    intro h0
    rw [h0] at h
    revert h
    decide
  · intro s fuel start e f path h
    obtain ⟨k, _, _, hr⟩ := exits_of_markRay s fuel start dir _ h
    simp only [Prod.mk.injEq] at hr
    rw [hr.2.1]
    exact iterate_axisUnit s (entry start dir) hu k

theorem direction_invariant_witness :
    axisUnit (0, 1) ∧ axisUnit (reflect Mirror.SLASH (0, 1)) ∧
      axisUnit (reflect Mirror.BACKSLASH (0, 1)) ∧ axisUnit (reflect Mirror.EMPTY (0, 1)) :=
  ⟨by decide, (direction_invariant (0, 1) (by decide)).1 Mirror.SLASH,
    (direction_invariant (0, 1) (by decide)).1 Mirror.BACKSLASH,
    (direction_invariant (0, 1) (by decide)).1 Mirror.EMPTY⟩

/-- C18. The function `lexiComp` is the built-in pair comparison `a < b` of the merge
loop, which is the lexicographic (row, column) order; it is a strict total order
(irreflexive, transitive, any two different positions comparable); and the sentinel
row `-1` of `solution` is not the row of any position `markRay` returns. -/
theorem lexiComp_is_pair_order :
    (∀ a b : Position, lexiComp a b ↔ pairLt a b) ∧
      (∀ a b : Position, lexiComp a b ↔ (a.1 < b.1 ∨ (a.1 = b.1 ∧ a.2 < b.2))) ∧
      (∀ a : Position, ¬ lexiComp a a) ∧
      (∀ a b c : Position, lexiComp a b → lexiComp b c → lexiComp a c) ∧
      (∀ a b : Position, lexiComp a b ∨ a = b ∨ lexiComp b a) ∧
      (∀ (s : Safe) (fuel : Nat) (start dir e f : Position) (path : List Position),
        markRay fuel s start dir = some (e, f, path) → ∀ p ∈ path, p.1 ≠ -1) := by
  refine ⟨lexiComp_iff, ?_, ?_, ?_, ?_, ?_⟩
  · intro a b
    rw [lexiComp_iff]
    simp only [pairLt]
    omega
  · intro a
    rw [lexiComp_iff]
    exact pairLt_irrefl a
  · intro a b c
    simp only [lexiComp_iff]
    exact pairLt_trans a b c
  · intro a b
    simp only [lexiComp_iff]
    exact pairLt_trichotomy a b
  · intro s fuel start dir e f path h p hp
    have := markRay_path_inGrid s fuel start dir e f path h p hp
    simp only [inGrid] at this
    omega

/-- C16. Path reversal.  For a start `s` one step outside the grid with an inward
axis-aligned unit direction `d`: if `markRay` from `(s, d)` ends with position `e` and
direction `f`, then `markRay` from `(e, -f)` ends with position `s` and direction `-d`
and returns the same list.  In particular, when the emitter beam ends on the detector
`(rows - 1, columns)`, the detector trace equals the emitter trace. -/
theorem markRay_reverse (s : Safe) (fuel : Nat) (start dir e f : Position)
    (path : List Position) (hout : ¬ inGrid s start)
    (hin : inGrid s (start.1 + dir.1, start.2 + dir.2)) (hu : axisUnit dir)
    (h : markRay fuel s start dir = some (e, f, path)) :
    markRay fuel s e (-f.1, -f.2) = some (start, (-dir.1, -dir.2), path) ∧
      (start = (0, -1) → dir = (0, 1) → e = (s.rows - 1, s.columns) →
        markRay fuel s (s.rows - 1, s.columns) (0, -1) = some ((0, -1), (0, -1), path)) := by
  have hrev := reverse_markRay_of_out s fuel start dir e f path hout h
  refine ⟨hrev, ?_⟩
  intro hs hd he
  obtain ⟨k, _, hE, hr⟩ := exits_of_markRay s fuel start dir _ h
  simp only [Prod.mk.injEq] at hr
  have hk := exits_pos_of_entry_inGrid s (entry start dir) k hE hin
  have hpos : ((step s)^[k] (entry start dir)).1 = (s.rows - 1, s.columns) := by
    rw [← hr.1, he]
  have hf : f = (0, 1) := by
    rw [hr.2.1]
    exact exit_dir_detector s (entry start dir) hu k hE hk hpos
  subst hs
  subst hd
  subst he
  subst hf
  simpa using hrev

theorem markRay_reverse_witness :
    ¬ inGrid sampleSafe (0, -1) ∧ inGrid sampleSafe ((0 : Int) + 0, (-1 : Int) + 1) ∧
      axisUnit (0, 1) ∧
      markRay 36 sampleSafe (0, -1) (0, 1) = some ((3, 1), (1, 0), [(0, 0), (1, 1), (2, 1)]) ∧
      markRay 36 sampleSafe (3, 1) (-(1 : Int), -(0 : Int)) =
        some ((0, -1), (-(0 : Int), -(1 : Int)), [(0, 0), (1, 1), (2, 1)]) :=
  ⟨by decide, by decide, by decide, by decide,
    (markRay_reverse sampleSafe 36 (0, -1) (0, 1) (3, 1) (1, 0) [(0, 0), (1, 1), (2, 1)]
      (by decide) (by decide) (by decide) (by decide)).1⟩

end SafeModel
